import Mathlib

/-
Verification development for the Cogl matrix stack
(cogl/cogl/cogl-matrix-stack.c).

The subsystem is a persistent, reference-counted chain of transform
nodes.  We embed it shallowly: heap cells are addressed by natural
numbers, every C pointer becomes an `Option Nat`, reference counts are
explicit, and every loop of the C source becomes a fuel-bounded
recursion (the fuel is always at least the number of heap slots, which
bounds every walk over live, acyclic chains).  An outer `Option` result
of an operation models a crash (NULL dereference) of the original; the
claims are settled on states where the original is crash free.

Matrix entries of the trusted external 4x4 matrix library (graphene)
are modelled over the rationals; rotation matrices involve
trigonometry, so the two rotation constructors are parameterized by an
arbitrary interpretation `RotModel`, which every theorem quantifies
over.  Graphene is row major; `graphene_matrix_multiply (a, b, res)`
(result last) computes the row-major matrix product a * b, and the
in-place transform helpers (translate, scale, rotate) append their
transform after the running matrix, m becoming m * X; translation
therefore sits in the fourth row.
-/

/-- The x, y, z payload of graphene_point3d_t. -/
structure Point3 where
  x : ℚ
  y : ℚ
  z : ℚ
deriving DecidableEq, Repr

/-- The payload of graphene_vec3_t. -/
structure Vec3 where
  x : ℚ
  y : ℚ
  z : ℚ
deriving DecidableEq, Repr

/-- The payload of graphene_euler_t: three angles. -/
structure EulerAngles where
  x : ℚ
  y : ℚ
  z : ℚ
deriving DecidableEq, Repr

/-- A graphene_matrix_t: a row major 4x4 matrix with rational entries. -/
@[ext]
structure Mat4 where
  m00 : ℚ
  m01 : ℚ
  m02 : ℚ
  m03 : ℚ
  m10 : ℚ
  m11 : ℚ
  m12 : ℚ
  m13 : ℚ
  m20 : ℚ
  m21 : ℚ
  m22 : ℚ
  m23 : ℚ
  m30 : ℚ
  m31 : ℚ
  m32 : ℚ
  m33 : ℚ
deriving DecidableEq, Repr

/-- The identity matrix (graphene_matrix_init_identity). -/
def Mat4.identity : Mat4 :=
  ⟨1, 0, 0, 0,
   0, 1, 0, 0,
   0, 0, 1, 0,
   0, 0, 0, 1⟩

/-- Row major matrix product, as computed by graphene_simd4x4f_matrix_mul:
entry (i, j) of `a.mul b` is the dot product of row i of `a` with
column j of `b`. -/
def Mat4.mul (a b : Mat4) : Mat4 where
  m00 := a.m00 * b.m00 + a.m01 * b.m10 + a.m02 * b.m20 + a.m03 * b.m30
  m01 := a.m00 * b.m01 + a.m01 * b.m11 + a.m02 * b.m21 + a.m03 * b.m31
  m02 := a.m00 * b.m02 + a.m01 * b.m12 + a.m02 * b.m22 + a.m03 * b.m32
  m03 := a.m00 * b.m03 + a.m01 * b.m13 + a.m02 * b.m23 + a.m03 * b.m33
  m10 := a.m10 * b.m00 + a.m11 * b.m10 + a.m12 * b.m20 + a.m13 * b.m30
  m11 := a.m10 * b.m01 + a.m11 * b.m11 + a.m12 * b.m21 + a.m13 * b.m31
  m12 := a.m10 * b.m02 + a.m11 * b.m12 + a.m12 * b.m22 + a.m13 * b.m32
  m13 := a.m10 * b.m03 + a.m11 * b.m13 + a.m12 * b.m23 + a.m13 * b.m33
  m20 := a.m20 * b.m00 + a.m21 * b.m10 + a.m22 * b.m20 + a.m23 * b.m30
  m21 := a.m20 * b.m01 + a.m21 * b.m11 + a.m22 * b.m21 + a.m23 * b.m31
  m22 := a.m20 * b.m02 + a.m21 * b.m12 + a.m22 * b.m22 + a.m23 * b.m32
  m23 := a.m20 * b.m03 + a.m21 * b.m13 + a.m22 * b.m23 + a.m23 * b.m33
  m30 := a.m30 * b.m00 + a.m31 * b.m10 + a.m32 * b.m20 + a.m33 * b.m30
  m31 := a.m30 * b.m01 + a.m31 * b.m11 + a.m32 * b.m21 + a.m33 * b.m31
  m32 := a.m30 * b.m02 + a.m31 * b.m12 + a.m32 * b.m22 + a.m33 * b.m32
  m33 := a.m30 * b.m03 + a.m31 * b.m13 + a.m32 * b.m23 + a.m33 * b.m33

theorem Mat4.mul_assoc (a b c : Mat4) : (a.mul b).mul c = a.mul (b.mul c) := by
  ext <;> simp only [Mat4.mul] <;> ring

theorem Mat4.mul_identity (a : Mat4) : a.mul Mat4.identity = a := by
  ext <;> simp [Mat4.mul, Mat4.identity]

theorem Mat4.identity_mul (a : Mat4) : Mat4.identity.mul a = a := by
  ext <;> simp [Mat4.mul, Mat4.identity]

/-- The graphene translation matrix (graphene_simd4x4f_translation):
row vectors act on the left, so the translation sits in the fourth row. -/
def translationMat (p : Point3) : Mat4 :=
  { Mat4.identity with m30 := p.x, m31 := p.y, m32 := p.z }

/-- The graphene scale matrix (graphene_simd4x4f_init_scale). -/
def scaleMat (x y z : ℚ) : Mat4 :=
  { Mat4.identity with m00 := x, m11 := y, m22 := z }

/-- Interpretation of the two trigonometric rotation constructors of the
trusted matrix library.  The source never inspects the produced
matrices, so every theorem quantifies over this interpretation. -/
structure RotModel where
  rotate : ℚ → Vec3 → Mat4
  rotateEuler : EulerAngles → Mat4

/-- A rotation interpretation sending every rotation to the identity;
used to instantiate concrete witnesses that involve no rotation. -/
def trivialRot : RotModel where
  rotate := fun _ _ => Mat4.identity
  rotateEuler := fun _ => Mat4.identity

/-- graphene_matrix_translate m p: appends the translation after m,
computing m times the translation matrix (in row-major layout). -/
def graphene_matrix_translate (m : Mat4) (p : Point3) : Mat4 :=
  m.mul (translationMat p)

/-- graphene_matrix_scale m x y z: appends the scale after m, computing
m times the scale matrix (in row-major layout). -/
def graphene_matrix_scale (m : Mat4) (x y z : ℚ) : Mat4 :=
  m.mul (scaleMat x y z)

/-- graphene_matrix_multiply a b (result argument last in C): the
product a * b.  The source always passes the running matrix as a and
the entry matrix as b, computing running * op. -/
def graphene_matrix_multiply (a b : Mat4) : Mat4 :=
  a.mul b

/-- Determinant of a 3x3 matrix given entrywise; helper for the 4x4
determinant and the cofactors of the inverse. -/
def det3 (a b c d e f g h i : ℚ) : ℚ :=
  a * (e * i - f * h) - b * (d * i - f * g) + c * (d * h - e * g)

/-- Determinant of a 4x4 matrix, by cofactor expansion along the first row. -/
def Mat4.det (m : Mat4) : ℚ :=
  m.m00 * det3 m.m11 m.m12 m.m13 m.m21 m.m22 m.m23 m.m31 m.m32 m.m33
  - m.m01 * det3 m.m10 m.m12 m.m13 m.m20 m.m22 m.m23 m.m30 m.m32 m.m33
  + m.m02 * det3 m.m10 m.m11 m.m13 m.m20 m.m21 m.m23 m.m30 m.m31 m.m33
  - m.m03 * det3 m.m10 m.m11 m.m12 m.m20 m.m21 m.m22 m.m30 m.m31 m.m32

/-- The adjugate (transposed cofactor matrix) of a 4x4 matrix. -/
def Mat4.adjugate (m : Mat4) : Mat4 where
  m00 := det3 m.m11 m.m12 m.m13 m.m21 m.m22 m.m23 m.m31 m.m32 m.m33
  m01 := -det3 m.m01 m.m02 m.m03 m.m21 m.m22 m.m23 m.m31 m.m32 m.m33
  m02 := det3 m.m01 m.m02 m.m03 m.m11 m.m12 m.m13 m.m31 m.m32 m.m33
  m03 := -det3 m.m01 m.m02 m.m03 m.m11 m.m12 m.m13 m.m21 m.m22 m.m23
  m10 := -det3 m.m10 m.m12 m.m13 m.m20 m.m22 m.m23 m.m30 m.m32 m.m33
  m11 := det3 m.m00 m.m02 m.m03 m.m20 m.m22 m.m23 m.m30 m.m32 m.m33
  m12 := -det3 m.m00 m.m02 m.m03 m.m10 m.m12 m.m13 m.m30 m.m32 m.m33
  m13 := det3 m.m00 m.m02 m.m03 m.m10 m.m12 m.m13 m.m20 m.m22 m.m23
  m20 := det3 m.m10 m.m11 m.m13 m.m20 m.m21 m.m23 m.m30 m.m31 m.m33
  m21 := -det3 m.m00 m.m01 m.m03 m.m20 m.m21 m.m23 m.m30 m.m31 m.m33
  m22 := det3 m.m00 m.m01 m.m03 m.m10 m.m11 m.m13 m.m30 m.m31 m.m33
  m23 := -det3 m.m00 m.m01 m.m03 m.m10 m.m11 m.m13 m.m20 m.m21 m.m23
  m30 := -det3 m.m10 m.m11 m.m12 m.m20 m.m21 m.m22 m.m30 m.m31 m.m32
  m31 := det3 m.m00 m.m01 m.m02 m.m20 m.m21 m.m22 m.m30 m.m31 m.m32
  m32 := -det3 m.m00 m.m01 m.m02 m.m10 m.m11 m.m12 m.m30 m.m31 m.m32
  m33 := det3 m.m00 m.m01 m.m02 m.m10 m.m11 m.m12 m.m20 m.m21 m.m22

/-- Scalar multiple of a matrix. -/
def Mat4.smul (q : ℚ) (m : Mat4) : Mat4 :=
  ⟨q * m.m00, q * m.m01, q * m.m02, q * m.m03,
   q * m.m10, q * m.m11, q * m.m12, q * m.m13,
   q * m.m20, q * m.m21, q * m.m22, q * m.m23,
   q * m.m30, q * m.m31, q * m.m32, q * m.m33⟩

/-- graphene_matrix_inverse: succeeds exactly when the determinant is
nonzero, returning the inverse; on a singular matrix it reports failure
(modelled as `none`) and writes no result. -/
def graphene_matrix_inverse (m : Mat4) : Option Mat4 :=
  if m.det = 0 then none else some (Mat4.smul m.det⁻¹ m.adjugate)

/-- graphene_point3d_equal, modelled exactly over the rationals. -/
def graphene_point3d_equal (a b : Point3) : Bool :=
  a = b

/-- graphene_vec3_equal (componentwise exact comparison). -/
def graphene_vec3_equal (a b : Vec3) : Bool :=
  a = b

/-- graphene_euler_equal (componentwise exact comparison). -/
def graphene_euler_equal (a b : EulerAngles) : Bool :=
  a = b

/-- graphene_matrix_equal (componentwise exact comparison). -/
def graphene_matrix_equal (a b : Mat4) : Bool :=
  a = b

/-- The tagged operation of a matrix entry (CoglMatrixOp together with
the per-variant payload of the CoglMatrixEntry subtypes).  The cache of
the Save variant (CoglMatrixEntrySave) stores cache_valid and the cache
together: `none` is an invalid cache, `some c` a valid one holding c. -/
inductive CoglMatrixOp where
  | loadIdentity
  | translate (t : Point3)
  | rotate (angle : ℚ) (axis : Vec3)
  | rotateEuler (euler : EulerAngles)
  | scale (x y z : ℚ)
  | multiply (matrix : Mat4)
  | load (matrix : Mat4)
  | save (cache : Option Mat4)
deriving DecidableEq, Repr

/-- The operation tag alone (the C enum CoglMatrixOp, without payload);
entry comparisons in the source compare these tags. -/
inductive OpTag where
  | loadIdentity
  | translate
  | rotate
  | rotateEuler
  | scale
  | multiply
  | load
  | save
deriving DecidableEq, Repr

def CoglMatrixOp.tag : CoglMatrixOp → OpTag
  | .loadIdentity => .loadIdentity
  | .translate _ => .translate
  | .rotate _ _ => .rotate
  | .rotateEuler _ => .rotateEuler
  | .scale _ _ _ => .scale
  | .multiply _ => .multiply
  | .load _ => .load
  | .save _ => .save

def CoglMatrixOp.isSave : CoglMatrixOp → Bool
  | .save _ => true
  | _ => false

def CoglMatrixOp.isTranslate : CoglMatrixOp → Bool
  | .translate _ => true
  | _ => false

/-- A CoglMatrixEntry: reference count, operation (with payload), and
parent pointer.  Pointers are heap indices; NULL is `none`. -/
structure CoglMatrixEntry where
  ref_count : Nat
  op : CoglMatrixOp
  parent : Option Nat
deriving DecidableEq, Repr

/-- The heap of matrix entries (the magazine allocator).  Slot i holds
`some e` when entry i is live and `none` when it was never allocated or
has been freed.  Allocation appends a slot, so identifiers are never
reused; this is one of the memory-management schemes the specification
explicitly allows. -/
structure Heap where
  entries : List (Option CoglMatrixEntry)
deriving DecidableEq, Repr

def Heap.lookup (h : Heap) (i : Nat) : Option CoglMatrixEntry :=
  h.entries.getD i none

/-- Allocate a fresh entry, returning the new heap and its identifier. -/
def Heap.alloc (h : Heap) (e : CoglMatrixEntry) : Heap × Nat :=
  (⟨h.entries ++ [some e]⟩, h.entries.length)

/-- Free slot i (return its chunk to the magazine). -/
def Heap.free (h : Heap) (i : Nat) : Heap :=
  ⟨h.entries.set i none⟩

/-- Update the entry in slot i, a no-op when the slot is dead. -/
def Heap.modifyEntry (h : Heap) (i : Nat) (f : CoglMatrixEntry → CoglMatrixEntry) : Heap :=
  match h.lookup i with
  | some e => ⟨h.entries.set i (some (f e))⟩
  | none => h

/-- A CoglMatrixStack: the handle holding the current top pointer. -/
structure CoglMatrixStack where
  last_entry : Option Nat
deriving DecidableEq, Repr

/-- cogl_matrix_entry_ref; a NULL argument is accepted as a no-op. -/
def cogl_matrix_entry_ref (h : Heap) (e : Option Nat) : Heap :=
  match e with
  | none => h
  | some i => h.modifyEntry i (fun en => { en with ref_count := en.ref_count + 1 })

/-- The loop body of cogl_matrix_entry_unref: decrement the count; on
reaching zero free the entry and continue with its parent.  The fuel
only guards against cyclic heaps; each recursive step frees one live
slot, so fuel `h.entries.length + 1` never runs out. -/
def unrefAux : Nat → Heap → Option Nat → Heap
  | 0, h, _ => h
  | _ + 1, h, none => h
  | fuel + 1, h, some i =>
    match h.lookup i with
    | none => h
    | some e =>
      if e.ref_count ≤ 1 then
        unrefAux fuel (h.free i) e.parent
      else
        h.modifyEntry i (fun en => { en with ref_count := en.ref_count - 1 })

def cogl_matrix_entry_unref (h : Heap) (e : Option Nat) : Heap :=
  unrefAux (h.entries.length + 1) h e

/-- _cogl_matrix_entry_new followed by _cogl_matrix_stack_push_entry of
_cogl_matrix_stack_push_operation, with the payload assignment the
callers perform folded into the operation argument: allocate an entry
with reference count 1 whose parent is the previous top (the reference
previously held by the stack is transferred to the new entry) and make
it the new top.  Returns the identifier of the new entry as well. -/
def _cogl_matrix_stack_push_operation (h : Heap) (st : CoglMatrixStack)
    (op : CoglMatrixOp) : Heap × CoglMatrixStack × Nat :=
  let r := h.alloc { ref_count := 1, op := op, parent := st.last_entry }
  (r.1, { last_entry := some r.2 }, r.2)

/-- The search loop of _cogl_matrix_stack_push_replacement_entry: walk
from i up to the first Save entry, or to the last entry before a NULL
parent.  `none` models the NULL dereference the C loop performs on a
dead pointer (and the fuel models divergence on a cyclic heap). -/
def replacementFindTarget : Nat → Heap → Nat → Option Nat
  | 0, _, _ => none
  | fuel + 1, h, i =>
    match h.lookup i with
    | none => none
    | some e =>
      if e.op.isSave then some i
      else
        match e.parent with
        | none => some i
        | some p => replacementFindTarget fuel h p

/-- _cogl_matrix_stack_push_replacement_entry: drop the chain back to
the nearest Save entry (or the root) and push the new operation on top
of it.  `none` models the crash of the original on a NULL top. -/
def _cogl_matrix_stack_push_replacement_entry (h : Heap) (st : CoglMatrixStack)
    (op : CoglMatrixOp) : Option (Heap × CoglMatrixStack × Nat) :=
  match st.last_entry with
  | none => none
  | some old_top =>
    match replacementFindTarget (h.entries.length + 1) h old_top with
    | none => none
    | some new_top =>
      let h1 := cogl_matrix_entry_ref h (some new_top)
      let h2 := cogl_matrix_entry_unref h1 (some old_top)
      some (_cogl_matrix_stack_push_operation h2 { last_entry := some new_top } op)

def cogl_matrix_stack_load_identity (h : Heap) (st : CoglMatrixStack) :
    Option (Heap × CoglMatrixStack) :=
  (_cogl_matrix_stack_push_replacement_entry h st .loadIdentity).map
    (fun r => (r.1, r.2.1))

def cogl_matrix_stack_translate (h : Heap) (st : CoglMatrixStack) (x y z : ℚ) :
    Heap × CoglMatrixStack :=
  let r := _cogl_matrix_stack_push_operation h st (.translate ⟨x, y, z⟩)
  (r.1, r.2.1)

def cogl_matrix_stack_rotate (h : Heap) (st : CoglMatrixStack) (angle x y z : ℚ) :
    Heap × CoglMatrixStack :=
  let r := _cogl_matrix_stack_push_operation h st (.rotate angle ⟨x, y, z⟩)
  (r.1, r.2.1)

def cogl_matrix_stack_rotate_euler (h : Heap) (st : CoglMatrixStack)
    (euler : EulerAngles) : Heap × CoglMatrixStack :=
  let r := _cogl_matrix_stack_push_operation h st (.rotateEuler euler)
  (r.1, r.2.1)

def cogl_matrix_stack_scale (h : Heap) (st : CoglMatrixStack) (x y z : ℚ) :
    Heap × CoglMatrixStack :=
  let r := _cogl_matrix_stack_push_operation h st (.scale x y z)
  (r.1, r.2.1)

def cogl_matrix_stack_multiply (h : Heap) (st : CoglMatrixStack) (m : Mat4) :
    Heap × CoglMatrixStack :=
  let r := _cogl_matrix_stack_push_operation h st (.multiply m)
  (r.1, r.2.1)

def cogl_matrix_stack_set (h : Heap) (st : CoglMatrixStack) (m : Mat4) :
    Option (Heap × CoglMatrixStack) :=
  (_cogl_matrix_stack_push_replacement_entry h st (.load m)).map
    (fun r => (r.1, r.2.1))

/-- cogl_matrix_stack_push: push a Save entry whose cache starts invalid. -/
def cogl_matrix_stack_push (h : Heap) (st : CoglMatrixStack) :
    Heap × CoglMatrixStack :=
  let r := _cogl_matrix_stack_push_operation h st (.save none)
  (r.1, r.2.1)

/-- The search loop of cogl_matrix_stack_pop: walk from i up to the
first Save entry.  The C loop has no NULL check, so a chain without a
Save entry dereferences NULL: `none`. -/
def popFindSave : Nat → Heap → Nat → Option Nat
  | 0, _, _ => none
  | fuel + 1, h, i =>
    match h.lookup i with
    | none => none
    | some e =>
      if e.op.isSave then some i
      else
        match e.parent with
        | none => none
        | some p => popFindSave fuel h p

/-- cogl_matrix_stack_pop: find the nearest Save entry, move the top to
its parent (taking a reference first) and release the old top.  A NULL
top makes the guarded original return unchanged; a chain without a Save
crashes the original, modelled by `none`. -/
def cogl_matrix_stack_pop (h : Heap) (st : CoglMatrixStack) :
    Option (Heap × CoglMatrixStack) :=
  match st.last_entry with
  | none => some (h, st)
  | some old_top =>
    match popFindSave (h.entries.length + 1) h old_top with
    | none => none
    | some sid =>
      match h.lookup sid with
      | none => none
      | some se =>
        let new_top := se.parent
        let h1 := cogl_matrix_entry_ref h new_top
        let h2 := cogl_matrix_entry_unref h1 (some old_top)
        some (h2, { last_entry := new_top })

/-- The single shared identity entry a context exposes
(_cogl_matrix_entry_identity_init). -/
def identityEntry : CoglMatrixEntry :=
  { ref_count := 1, op := .loadIdentity, parent := none }

/-- A context heap holding only the shared identity entry, at slot 0. -/
def initialHeap : Heap :=
  ⟨[some identityEntry]⟩

/-- cogl_matrix_stack_new: reference the shared identity entry of the
context and push it as the initial top (the push sets its parent to the
NULL last_entry of the fresh stack). -/
def cogl_matrix_stack_new (h : Heap) (identity_id : Nat) : Heap × CoglMatrixStack :=
  let h1 := cogl_matrix_entry_ref h (some identity_id)
  let h2 := h1.modifyEntry identity_id (fun e => { e with parent := none })
  (h2, { last_entry := some identity_id })

/-- Overwrite the cache of a Save operation (save->cache = c together
with save->cache_valid = TRUE); any other operation is unchanged. -/
def setSaveCache : CoglMatrixOp → Mat4 → CoglMatrixOp
  | .save _, c => .save (some c)
  | op, _ => op

/-- The walking loop of cogl_matrix_entry_get.  `m` is the accumulating
output matrix (initialized to the identity by the caller); every
non-terminal operation multiplies its matrix onto `m` from the right
(the graphene helpers append after the running matrix) and moves to
the parent.  LoadIdentity, Load, and Save are terminal.  An invalid
Save cache triggers the recursive cogl_matrix_entry_get on the parent
(crashing, `none`, when the parent is NULL), and its result is stored
in the cache.  Falling off a NULL parent ends the loop, returning the
accumulated matrix (the release build only warns).  A dead pointer or a
cyclic chain is `none`. -/
def entryGetAux (G : RotModel) : Nat → Heap → Option Nat → Mat4 →
    Option (Heap × Mat4)
  | 0, _, _, _ => none
  | _ + 1, h, none, m => some (h, m)
  | fuel + 1, h, some i, m =>
    match h.lookup i with
    | none => none
    | some e =>
      match e.op with
      | .translate t => entryGetAux G fuel h e.parent (graphene_matrix_translate m t)
      | .rotate a ax => entryGetAux G fuel h e.parent (m.mul (G.rotate a ax))
      | .rotateEuler u => entryGetAux G fuel h e.parent (m.mul (G.rotateEuler u))
      | .scale x y z => entryGetAux G fuel h e.parent (graphene_matrix_scale m x y z)
      | .multiply mm => entryGetAux G fuel h e.parent (graphene_matrix_multiply m mm)
      | .loadIdentity => some (h, m)
      | .load mm => some (h, graphene_matrix_multiply m mm)
      | .save cache =>
        match cache with
        | some c => some (h, graphene_matrix_multiply m c)
        | none =>
          match e.parent with
          | none => none
          | some p =>
            match entryGetAux G fuel h (some p) Mat4.identity with
            | none => none
            | some (h1, c) =>
              let h2 := h1.modifyEntry i (fun en => { en with op := setSaveCache en.op c })
              some (h2, graphene_matrix_multiply m c)

/-- cogl_matrix_entry_get: initialize the output to the identity, run
the walk, and compute the optionally returned pointer: when the depth
is zero (the queried entry is itself terminal) and that entry holds a
ready-made matrix (Load, or Save with its now valid cache) the function
returns a pointer to it; the returned triple is (heap, written output
matrix, value behind the returned pointer or `none` for NULL).  A NULL
entry crashes the original on the depth-zero switch. -/
def cogl_matrix_entry_get (G : RotModel) (h : Heap) (entry : Option Nat) :
    Option (Heap × Mat4 × Option Mat4) :=
  match entry with
  | none => none
  | some i =>
    match entryGetAux G (h.entries.length + 1) h (some i) Mat4.identity with
    | none => none
    | some (h1, m) =>
      let ptr : Option Mat4 :=
        match h1.lookup i with
        | some e =>
          match e.op with
          | .load mm => some mm
          | .save (some c) => some c
          | _ => none
        | none => none
      let depthZero : Bool :=
        match h.lookup i with
        | some e =>
          match e.op with
          | .loadIdentity => true
          | .load _ => true
          | .save _ => true
          | _ => false
        | none => false
      some (h1, m, if depthZero then ptr else none)

def cogl_matrix_stack_get_entry (st : CoglMatrixStack) : Option Nat :=
  st.last_entry

/-- cogl_matrix_stack_get: evaluate the composite at the current top. -/
def cogl_matrix_stack_get (G : RotModel) (h : Heap) (st : CoglMatrixStack) :
    Option (Heap × Mat4 × Option Mat4) :=
  cogl_matrix_entry_get G h st.last_entry

/-- cogl_matrix_stack_get_inverse: obtain the composite (preferring the
internally returned pointer when present) and invert it; the inner
`Option Mat4` is the failure-or-inverse result. -/
def cogl_matrix_stack_get_inverse (G : RotModel) (h : Heap) (st : CoglMatrixStack) :
    Option (Heap × Option Mat4) :=
  match cogl_matrix_stack_get G h st with
  | none => none
  | some (h1, m, ptr) =>
    match ptr with
    | some internal => some (h1, graphene_matrix_inverse internal)
    | none => some (h1, graphene_matrix_inverse m)

def cogl_matrix_entry_is_identity (h : Heap) (entry : Option Nat) : Option Bool :=
  match entry with
  | none => some false
  | some i =>
    match h.lookup i with
    | none => none
    | some e => some (e.op.tag = OpTag.loadIdentity)

/-- _cogl_matrix_entry_skip_saves: move up while the operation is Save.
The C loop has no NULL check (it relies on chains ending in a
LoadIdentity entry), so a Save entry with a NULL parent crashes:
`none`; so does a dead pointer or exhausted fuel. -/
def _cogl_matrix_entry_skip_saves : Nat → Heap → Nat → Option Nat
  | 0, _, _ => none
  | fuel + 1, h, i =>
    match h.lookup i with
    | none => none
    | some e =>
      if e.op.isSave then
        match e.parent with
        | none => none
        | some p => _cogl_matrix_entry_skip_saves fuel h p
      else some i

/-- The lockstep loop of cogl_matrix_entry_equal.  Exiting the loop
because either pointer became NULL returns false.  After skipping Save
entries on both sides, pointer equality short-circuits to true; then
operation tags are compared, and same-tag entries compare their payload
with the exact graphene comparisons, continuing with both parents on a
match.  LoadIdentity is immediately true and Load returns the matrix
comparison without climbing further. -/
def entryEqualAux (h : Heap) : Nat → Option Nat → Option Nat → Option Bool
  | 0, _, _ => none
  | fuel + 1, o0, o1 =>
    match o0, o1 with
    | some i0, some i1 =>
      match _cogl_matrix_entry_skip_saves (h.entries.length + 1) h i0,
            _cogl_matrix_entry_skip_saves (h.entries.length + 1) h i1 with
      | some j0, some j1 =>
        if j0 = j1 then some true
        else
          match h.lookup j0, h.lookup j1 with
          | some e0, some e1 =>
            if e0.op.tag ≠ e1.op.tag then some false
            else
              match e0.op, e1.op with
              | .loadIdentity, _ => some true
              | .translate p0, .translate p1 =>
                if graphene_point3d_equal p0 p1 then
                  entryEqualAux h fuel e0.parent e1.parent
                else some false
              | .rotate a0 ax0, .rotate a1 ax1 =>
                if a0 = a1 && graphene_vec3_equal ax0 ax1 then
                  entryEqualAux h fuel e0.parent e1.parent
                else some false
              | .rotateEuler u0, .rotateEuler u1 =>
                if graphene_euler_equal u0 u1 then
                  entryEqualAux h fuel e0.parent e1.parent
                else some false
              | .scale x0 y0 z0, .scale x1 y1 z1 =>
                if x0 = x1 && y0 = y1 && z0 = z1 then
                  entryEqualAux h fuel e0.parent e1.parent
                else some false
              | .multiply m0, .multiply m1 =>
                if graphene_matrix_equal m0 m1 then
                  entryEqualAux h fuel e0.parent e1.parent
                else some false
              | .load m0, .load m1 => some (graphene_matrix_equal m0 m1)
              | _, _ => entryEqualAux h fuel e0.parent e1.parent
          | _, _ => none
      | _, _ => none
    | _, _ => some false

/-- cogl_matrix_entry_equal.  `none` models a crash (dead pointer or a
Save chain falling off NULL inside skip_saves) or a cyclic chain. -/
def cogl_matrix_entry_equal (h : Heap) (e0 e1 : Option Nat) : Option Bool :=
  entryEqualAux h (h.entries.length + 1) e0 e1

/-- The list-building walk of cogl_matrix_entry_calculate_translation:
from the given entry walk up through the parents, skipping Save
entries, prepending every other visited entry (so the result is in
root-to-node order) and stopping right after the first non-Translate
entry; the walk also ends when it falls off a NULL parent.  `none`
models a dead pointer or a cyclic chain. -/
def walkTransList : Nat → Heap → Option Nat → List Nat → Option (List Nat)
  | 0, _, _, _ => none
  | _ + 1, _, none, acc => some acc
  | fuel + 1, h, some i, acc =>
    match h.lookup i with
    | none => none
    | some e =>
      if e.op.isSave then walkTransList fuel h e.parent acc
      else
        if e.op.isTranslate then walkTransList fuel h e.parent (i :: acc)
        else some (i :: acc)

/-- The common-ancestor scan of cogl_matrix_entry_calculate_translation:
with the two lists positioned after their already matched heads and
`count` remaining comparisons, advance both while the elements match;
the returned pair holds the exclusive suffixes (everything after the
deepest common ancestor). -/
def splitCommon : Nat → List Nat → List Nat → List Nat × List Nat
  | 0, l0, l1 => (l0, l1)
  | _ + 1, [], l1 => ([], l1)
  | _ + 1, l0, [] => (l0, [])
  | n + 1, a :: t0, b :: t1 =>
    if a = b then splitCommon n t0 t1 else (a :: t0, b :: t1)

/-- The two summation loops of cogl_matrix_entry_calculate_translation:
add up the translation payloads of the listed entries, failing (FALSE,
`none`) on any entry that is not a Translate. -/
def sumTrans (h : Heap) : List Nat → Option Point3
  | [] => some ⟨0, 0, 0⟩
  | i :: t =>
    match h.lookup i with
    | none => none
    | some e =>
      match e.op with
      | .translate p =>
        (sumTrans h t).map (fun q => ⟨p.x + q.x, p.y + q.y, p.z + q.z⟩)
      | _ => none

/-- cogl_matrix_entry_calculate_translation.  The outer `Option` models
a crash of the original (a NULL entry makes the list head NULL and the
head comparison dereferences it); the inner `Option Point3` is the
FALSE-or-result outcome: `some none` is the FALSE return, and
`some (some p)` the TRUE return with output p. -/
def cogl_matrix_entry_calculate_translation (h : Heap) (e0 e1 : Option Nat) :
    Option (Option Point3) :=
  let fuel := h.entries.length + 1
  match walkTransList fuel h e0 [], walkTransList fuel h e1 [] with
  | some (a :: t0), some (b :: t1) =>
    if a = b then
      let s := splitCommon (min t0.length t1.length) t0 t1
      match sumTrans h s.1 with
      | none => some none
      | some p0 =>
        match sumTrans h s.2 with
        | none => some none
        | some p1 => some (some ⟨p1.x - p0.x, p1.y - p0.y, p1.z - p0.z⟩)
    else some none
  | some [], _ => none
  | _, some [] => none
  | none, _ => none
  | _, none => none

/-- The matrix a non-terminal operation contributes to the composite. -/
def nonTerminalMat (G : RotModel) : CoglMatrixOp → Mat4
  | .translate p => translationMat p
  | .rotate a ax => G.rotate a ax
  | .rotateEuler u => G.rotateEuler u
  | .scale x y z => scaleMat x y z
  | .multiply m => m
  | _ => Mat4.identity

/-- Modelled from the spec (section 4.3, Composite Evaluator): the value
the evaluator is claimed to produce for a node.  Walking stops at the
first terminal operation: LoadIdentity contributes the identity, Load
its stored matrix, a Save with a valid cache its cached composite, and
a Save with an invalid cache the lazily computed composite of its
parent chain; every non-terminal operation right-multiplies the running
matrix by its local transform as the walk ascends, so the composite of
a node is its local matrix times the composite of its parent (in
row-major layout).  Falling off
the root yields the accumulated product over an implicit identity. -/
def evaluatorSpec (G : RotModel) : Nat → Heap → Option Nat → Option Mat4
  | 0, _, _ => none
  | _ + 1, _, none => some Mat4.identity
  | fuel + 1, h, some i =>
    match h.lookup i with
    | none => none
    | some e =>
      match e.op with
      | .loadIdentity => some Mat4.identity
      | .load mm => some mm
      | .save (some c) => some c
      | .save none =>
        match e.parent with
        | none => none
        | some p => evaluatorSpec G fuel h (some p)
      | op => (evaluatorSpec G fuel h e.parent).map (fun pm => (nonTerminalMat G op).mul pm)

/-- A straight-line live chain above a stack top: `chainOk h s tp l`
holds when `l` lists, top first, the pairwise distinct live entries
from `tp` down to (excluding) `s`; each listed entry is not a Save, has
reference count 1 (only its child or the stack owns it) and links to
the next, the last linking to `s`. -/
def chainOk (h : Heap) (s : Nat) : Nat → List Nat → Bool
  | tp, [] => tp = s
  | tp, i :: l =>
    i = tp && decide (i ≠ s) && !(l.contains i) &&
      (match h.lookup i with
       | some e =>
         !e.op.isSave && e.ref_count = 1 &&
           (match e.parent with
            | some p => chainOk h s p l
            | none => false)
       | none => false)

/-- The appending stack mutations (they push exactly one entry). -/
inductive AppendOp where
  | translate (x y z : ℚ)
  | rotate (angle x y z : ℚ)
  | rotateEuler (u : EulerAngles)
  | scale (x y z : ℚ)
  | multiply (m : Mat4)
deriving DecidableEq, Repr

def applyAppendOp (h : Heap) (st : CoglMatrixStack) : AppendOp → Heap × CoglMatrixStack
  | .translate x y z => cogl_matrix_stack_translate h st x y z
  | .rotate a x y z => cogl_matrix_stack_rotate h st a x y z
  | .rotateEuler u => cogl_matrix_stack_rotate_euler h st u
  | .scale x y z => cogl_matrix_stack_scale h st x y z
  | .multiply m => cogl_matrix_stack_multiply h st m

/-- The operation a given appending mutation pushes. -/
def AppendOp.pushedOp : AppendOp → CoglMatrixOp
  | .translate x y z => .translate ⟨x, y, z⟩
  | .rotate a x y z => .rotate a ⟨x, y, z⟩
  | .rotateEuler u => .rotateEuler u
  | .scale x y z => .scale x y z
  | .multiply m => .multiply m

/-- The transform mutations of the stack: the appending ones plus the
two replacing ones (load_identity and set). -/
inductive MutOp where
  | translate (x y z : ℚ)
  | rotate (angle x y z : ℚ)
  | rotateEuler (u : EulerAngles)
  | scale (x y z : ℚ)
  | multiply (m : Mat4)
  | loadIdentity
  | set (m : Mat4)
deriving DecidableEq, Repr

def applyMutOp (h : Heap) (st : CoglMatrixStack) : MutOp → Option (Heap × CoglMatrixStack)
  | .translate x y z => some (cogl_matrix_stack_translate h st x y z)
  | .rotate a x y z => some (cogl_matrix_stack_rotate h st a x y z)
  | .rotateEuler u => some (cogl_matrix_stack_rotate_euler h st u)
  | .scale x y z => some (cogl_matrix_stack_scale h st x y z)
  | .multiply m => some (cogl_matrix_stack_multiply h st m)
  | .loadIdentity => cogl_matrix_stack_load_identity h st
  | .set m => cogl_matrix_stack_set h st m

def applyMutOps : Heap → CoglMatrixStack → List MutOp → Option (Heap × CoglMatrixStack)
  | h, st, [] => some (h, st)
  | h, st, op :: ops =>
    match applyMutOp h st op with
    | none => none
    | some (h1, st1) => applyMutOps h1 st1 ops

theorem Heap.lt_of_lookup_isSome {h : Heap} {i : Nat}
    (hs : (h.lookup i).isSome) : i < h.entries.length := by
  by_contra hge
  have : h.entries[i]? = none := by
    simp [List.getElem?_eq_none_iff]; omega
  simp [Heap.lookup, List.getD_eq_getElem?_getD, this] at hs

theorem Heap.lookup_eq_getElem (h : Heap) (i : Nat) :
    h.lookup i = (h.entries[i]?).getD none := by
  simp [Heap.lookup, List.getD_eq_getElem?_getD]

theorem Heap.length_alloc (h : Heap) (e : CoglMatrixEntry) :
    (h.alloc e).1.entries.length = h.entries.length + 1 := by
  simp [Heap.alloc]

theorem Heap.alloc_id (h : Heap) (e : CoglMatrixEntry) :
    (h.alloc e).2 = h.entries.length := rfl

theorem Heap.lookup_alloc_new (h : Heap) (e : CoglMatrixEntry) :
    (h.alloc e).1.lookup h.entries.length = some e := by
  simp [Heap.alloc, Heap.lookup_eq_getElem]

theorem Heap.lookup_alloc_old (h : Heap) (e : CoglMatrixEntry) {i : Nat}
    (hi : i ≠ h.entries.length) :
    (h.alloc e).1.lookup i = h.lookup i := by
  rcases Nat.lt_or_ge i h.entries.length with hlt | hge
  · simp only [Heap.alloc, Heap.lookup_eq_getElem]
    rw [List.getElem?_append]
    simp [hlt]
  · have h1 : h.entries[i]? = none := by simp [List.getElem?_eq_none_iff]; omega
    have h2 : (h.entries ++ [some e])[i]? = none := by
      simp only [List.getElem?_eq_none_iff, List.length_append, List.length_cons,
        List.length_nil]
      omega
    simp [Heap.alloc, Heap.lookup_eq_getElem, h1, h2]

theorem Heap.length_free (h : Heap) (i : Nat) :
    (h.free i).entries.length = h.entries.length := by
  simp [Heap.free]

theorem Heap.lookup_free_self (h : Heap) (i : Nat) :
    (h.free i).lookup i = none := by
  simp only [Heap.free, Heap.lookup_eq_getElem]
  rcases Nat.lt_or_ge i h.entries.length with hlt | hge
  · rw [List.getElem?_set_self (by simpa using hlt)]
    simp
  · have : (h.entries.set i none)[i]? = none := by
      simp [List.getElem?_eq_none_iff]; omega
    simp [this]

theorem Heap.lookup_free_other (h : Heap) {i j : Nat} (hij : j ≠ i) :
    (h.free i).lookup j = h.lookup j := by
  simp only [Heap.free, Heap.lookup_eq_getElem]
  rw [List.getElem?_set_ne (by omega)]

theorem Heap.length_modify (h : Heap) (i : Nat) (f : CoglMatrixEntry → CoglMatrixEntry) :
    (h.modifyEntry i f).entries.length = h.entries.length := by
  unfold Heap.modifyEntry
  cases h.lookup i <;> simp

theorem Heap.lookup_modify_self {h : Heap} {i : Nat} {e : CoglMatrixEntry}
    (he : h.lookup i = some e) (f : CoglMatrixEntry → CoglMatrixEntry) :
    (h.modifyEntry i f).lookup i = some (f e) := by
  have hi : i < h.entries.length := h.lt_of_lookup_isSome (by simp [he])
  unfold Heap.modifyEntry
  rw [he]
  simp only [Heap.lookup_eq_getElem]
  rw [List.getElem?_set_self (by simpa using hi)]
  simp

theorem Heap.lookup_modify_none {h : Heap} {i : Nat}
    (he : h.lookup i = none) (f : CoglMatrixEntry → CoglMatrixEntry) :
    h.modifyEntry i f = h := by
  unfold Heap.modifyEntry
  rw [he]

theorem Heap.lookup_modify_other (h : Heap) {i j : Nat} (hij : j ≠ i)
    (f : CoglMatrixEntry → CoglMatrixEntry) :
    (h.modifyEntry i f).lookup j = h.lookup j := by
  unfold Heap.modifyEntry
  cases h.lookup i with
  | none => rfl
  | some e =>
    simp only [Heap.lookup_eq_getElem]
    rw [List.getElem?_set_ne (by omega)]

theorem Heap.length_ref (h : Heap) (e : Option Nat) :
    (cogl_matrix_entry_ref h e).entries.length = h.entries.length := by
  cases e with
  | none => rfl
  | some i => simp [cogl_matrix_entry_ref, Heap.length_modify]

theorem Heap.lookup_ref_self {h : Heap} {i : Nat} {e : CoglMatrixEntry}
    (he : h.lookup i = some e) :
    (cogl_matrix_entry_ref h (some i)).lookup i
      = some { e with ref_count := e.ref_count + 1 } := by
  simp [cogl_matrix_entry_ref, Heap.lookup_modify_self he]

theorem Heap.lookup_ref_other (h : Heap) {i j : Nat} (hij : j ≠ i) :
    (cogl_matrix_entry_ref h (some i)).lookup j = h.lookup j := by
  simp [cogl_matrix_entry_ref, Heap.lookup_modify_other h hij]

theorem push_operation_eq (h : Heap) (st : CoglMatrixStack) (op : CoglMatrixOp) :
    _cogl_matrix_stack_push_operation h st op =
      ((h.alloc { ref_count := 1, op := op, parent := st.last_entry }).1,
        { last_entry := some h.entries.length }, h.entries.length) := rfl

/-- C9: each of translate, rotate, rotate_euler, scale and multiply
pushes exactly one new entry, with reference count 1, carrying the
operation and payload of the call, whose parent is the previous top;
the new entry becomes the top, and every previously existing heap slot
(shared with any other stack) is completely unchanged. -/
theorem appending_ops_spec (h : Heap) (st : CoglMatrixStack) (a : AppendOp) :
    (applyAppendOp h st a).1.entries.length = h.entries.length + 1 ∧
    (applyAppendOp h st a).2.last_entry = some h.entries.length ∧
    (applyAppendOp h st a).1.lookup h.entries.length =
      some { ref_count := 1, op := a.pushedOp, parent := st.last_entry } ∧
    ∀ i, i ≠ h.entries.length → (applyAppendOp h st a).1.lookup i = h.lookup i := by
  have main : ∀ op : CoglMatrixOp,
      (h.alloc { ref_count := 1, op := op, parent := st.last_entry }).1.entries.length
        = h.entries.length + 1 ∧
      (h.alloc { ref_count := 1, op := op, parent := st.last_entry }).1.lookup
          h.entries.length = some { ref_count := 1, op := op, parent := st.last_entry } ∧
      ∀ i, i ≠ h.entries.length →
        (h.alloc { ref_count := 1, op := op, parent := st.last_entry }).1.lookup i
          = h.lookup i := by
    intro op
    exact ⟨Heap.length_alloc h _, Heap.lookup_alloc_new h _,
      fun i hi => Heap.lookup_alloc_old h _ hi⟩
  cases a with
  | translate x y z =>
    refine ⟨(main _).1, rfl, (main _).2.1, (main _).2.2⟩
  | rotate a x y z =>
    refine ⟨(main _).1, rfl, (main _).2.1, (main _).2.2⟩
  | rotateEuler u =>
    refine ⟨(main _).1, rfl, (main _).2.1, (main _).2.2⟩
  | scale x y z =>
    refine ⟨(main _).1, rfl, (main _).2.1, (main _).2.2⟩
  | multiply m =>
    refine ⟨(main _).1, rfl, (main _).2.1, (main _).2.2⟩

theorem entryGetAux_refines (G : RotModel) :
    ∀ (fuel : Nat) (h : Heap) (cur : Option Nat) (v : Mat4),
      evaluatorSpec G fuel h cur = some v →
      ∀ m : Mat4, ∃ h1 : Heap, entryGetAux G fuel h cur m = some (h1, m.mul v) := by
  intro fuel
  induction fuel with
  | zero => intro h cur v hv; simp [evaluatorSpec] at hv
  | succ fuel ih =>
    intro h cur v hv m
    cases cur with
    | none =>
      simp only [evaluatorSpec, Option.some_inj] at hv
      subst hv
      exact ⟨h, by simp [entryGetAux, Mat4.mul_identity]⟩
    | some i =>
      cases hl : h.lookup i with
      | none => simp [evaluatorSpec, hl] at hv
      | some e =>
        cases hop : e.op with
        | loadIdentity =>
          simp only [evaluatorSpec, hl, hop, Option.some_inj] at hv
          subst hv
          exact ⟨h, by simp [entryGetAux, hl, hop, Mat4.mul_identity]⟩
        | load mm =>
          simp only [evaluatorSpec, hl, hop, Option.some_inj] at hv
          subst hv
          exact ⟨h, by simp [entryGetAux, hl, hop, graphene_matrix_multiply]⟩
        | save cache =>
          cases cache with
          | some c =>
            simp only [evaluatorSpec, hl, hop, Option.some_inj] at hv
            subst hv
            exact ⟨h, by simp [entryGetAux, hl, hop, graphene_matrix_multiply]⟩
          | none =>
            cases hp : e.parent with
            | none => simp [evaluatorSpec, hl, hop, hp] at hv
            | some p =>
              have hv' : evaluatorSpec G fuel h (some p) = some v := by
                simpa [evaluatorSpec, hl, hop, hp] using hv
              obtain ⟨h1, hh1⟩ := ih h (some p) v hv' Mat4.identity
              refine ⟨h1.modifyEntry i (fun en =>
                { en with op := setSaveCache en.op (Mat4.identity.mul v) }), ?_⟩
              simp [entryGetAux, hl, hop, hp, hh1, graphene_matrix_multiply,
                Mat4.identity_mul]
        | translate t =>
          simp only [evaluatorSpec, hl, hop, Option.map_eq_some'] at hv
          obtain ⟨pm, hpm, rfl⟩ := hv
          obtain ⟨h1, hh1⟩ := ih h e.parent pm hpm (m.mul (translationMat t))
          refine ⟨h1, ?_⟩
          simp [entryGetAux, hl, hop, graphene_matrix_translate, hh1,
            nonTerminalMat, Mat4.mul_assoc]
        | rotate a ax =>
          simp only [evaluatorSpec, hl, hop, Option.map_eq_some'] at hv
          obtain ⟨pm, hpm, rfl⟩ := hv
          obtain ⟨h1, hh1⟩ := ih h e.parent pm hpm (m.mul (G.rotate a ax))
          refine ⟨h1, ?_⟩
          simp [entryGetAux, hl, hop, hh1, nonTerminalMat, Mat4.mul_assoc]
        | rotateEuler u =>
          simp only [evaluatorSpec, hl, hop, Option.map_eq_some'] at hv
          obtain ⟨pm, hpm, rfl⟩ := hv
          obtain ⟨h1, hh1⟩ := ih h e.parent pm hpm (m.mul (G.rotateEuler u))
          refine ⟨h1, ?_⟩
          simp [entryGetAux, hl, hop, hh1, nonTerminalMat, Mat4.mul_assoc]
        | scale x y z =>
          simp only [evaluatorSpec, hl, hop, Option.map_eq_some'] at hv
          obtain ⟨pm, hpm, rfl⟩ := hv
          obtain ⟨h1, hh1⟩ := ih h e.parent pm hpm (m.mul (scaleMat x y z))
          refine ⟨h1, ?_⟩
          simp [entryGetAux, hl, hop, graphene_matrix_scale, hh1,
            nonTerminalMat, Mat4.mul_assoc]
        | multiply mm =>
          simp only [evaluatorSpec, hl, hop, Option.map_eq_some'] at hv
          obtain ⟨pm, hpm, rfl⟩ := hv
          obtain ⟨h1, hh1⟩ := ih h e.parent pm hpm (m.mul mm)
          refine ⟨h1, ?_⟩
          simp [entryGetAux, hl, hop, graphene_matrix_multiply, hh1,
            nonTerminalMat, Mat4.mul_assoc]

/-- The state of a fresh stack after translate(1,2,3) then scale(2,2,2). -/
def exampleChainTS : Heap × CoglMatrixStack :=
  let r0 := cogl_matrix_stack_new initialHeap 0
  let r1 := cogl_matrix_stack_translate r0.1 r0.2 1 2 3
  cogl_matrix_stack_scale r1.1 r1.2 2 2 2

/-- C1: the composite evaluator cogl_matrix_entry_get realizes the
claimed algorithm: the output starts as the identity, each
Translate/Rotate/RotateEuler/Scale/Multiply node applies its local
transform by right-multiplication against the running matrix while
walking to the parent (the graphene helpers append after the running
matrix), and the walk stops at the first terminal node — LoadIdentity
(nothing further applied), Load (its stored matrix applied once), Save
(its lazily computed cached composite applied); `evaluatorSpec` is
that algorithm transcribed from the claim, and any chain it evaluates
to v makes cogl_matrix_entry_get write exactly v.  In particular, for
the chain translate(1,2,3) then scale(2,2,2) the produced matrix is
Translate(1,2,3) * Scale(2,2,2) applied to the identity: in the
row-major (row-vector) graphene layout that standard composite is
scaleMat * translationMat, whose fourth row holds the translation
(1, 2, 3). -/
theorem cogl_matrix_entry_get_correct :
    (∀ (G : RotModel) (h : Heap) (i : Nat) (v : Mat4),
      evaluatorSpec G (h.entries.length + 1) h (some i) = some v →
      ∃ r, cogl_matrix_entry_get G h (some i) = some r ∧ r.2.1 = v) ∧
    cogl_matrix_stack_get trivialRot exampleChainTS.1 exampleChainTS.2 =
      some (exampleChainTS.1,
        (scaleMat 2 2 2).mul (translationMat ⟨1, 2, 3⟩), none) ∧
    ((scaleMat 2 2 2).mul (translationMat ⟨1, 2, 3⟩)).m30 = 1 ∧
    ((scaleMat 2 2 2).mul (translationMat ⟨1, 2, 3⟩)).m31 = 2 ∧
    ((scaleMat 2 2 2).mul (translationMat ⟨1, 2, 3⟩)).m32 = 3 := by
  refine ⟨?_, ?_, ?_, ?_, ?_⟩
  · intro G h i v hv
    obtain ⟨h1, hh1⟩ := entryGetAux_refines G (h.entries.length + 1) h (some i) v hv
      Mat4.identity
    cases hr : cogl_matrix_entry_get G h (some i) with
    | none =>
      simp only [cogl_matrix_entry_get, hh1] at hr
      exact absurd hr (by simp)
    | some r =>
      refine ⟨r, rfl, ?_⟩
      simp only [cogl_matrix_entry_get, hh1] at hr
      injection hr with hr1
      subst hr1
      exact Mat4.identity_mul v
  · norm_num [exampleChainTS, cogl_matrix_stack_new, cogl_matrix_stack_translate,
      cogl_matrix_stack_scale, cogl_matrix_stack_get, cogl_matrix_entry_get,
      entryGetAux, _cogl_matrix_stack_push_operation, Heap.alloc, Heap.lookup,
      Heap.modifyEntry, cogl_matrix_entry_ref, initialHeap, identityEntry,
      graphene_matrix_translate, graphene_matrix_scale, graphene_matrix_multiply,
      translationMat, scaleMat, Mat4.mul, Mat4.identity, List.getD, trivialRot]
  · norm_num [translationMat, scaleMat, Mat4.mul, Mat4.identity]
  · norm_num [translationMat, scaleMat, Mat4.mul, Mat4.identity]
  · norm_num [translationMat, scaleMat, Mat4.mul, Mat4.identity]

/-- Witness for C1: the general evaluator theorem applied to the
concrete chain translate(1,2,3) then scale(2,2,2), whose top entry has
identifier 2; the composite is the row-major Translate * Scale with
fourth row (1, 2, 3). -/
theorem cogl_matrix_entry_get_correct_witness :
    evaluatorSpec trivialRot (exampleChainTS.1.entries.length + 1) exampleChainTS.1
        (some 2) = some ((scaleMat 2 2 2).mul (translationMat ⟨1, 2, 3⟩)) ∧
    ∃ r, cogl_matrix_entry_get trivialRot exampleChainTS.1 (some 2) = some r ∧
      r.2.1 = (scaleMat 2 2 2).mul (translationMat ⟨1, 2, 3⟩) :=
  ⟨by norm_num [exampleChainTS, cogl_matrix_stack_new, cogl_matrix_stack_translate,
      cogl_matrix_stack_scale, _cogl_matrix_stack_push_operation, Heap.alloc,
      Heap.lookup, Heap.modifyEntry, cogl_matrix_entry_ref, initialHeap,
      identityEntry, evaluatorSpec, nonTerminalMat, translationMat, scaleMat,
      Mat4.mul, Mat4.identity, List.getD, trivialRot],
   cogl_matrix_entry_get_correct.1 trivialRot exampleChainTS.1 2
      ((scaleMat 2 2 2).mul (translationMat ⟨1, 2, 3⟩))
      (by norm_num [exampleChainTS, cogl_matrix_stack_new, cogl_matrix_stack_translate,
        cogl_matrix_stack_scale, _cogl_matrix_stack_push_operation, Heap.alloc,
        Heap.lookup, Heap.modifyEntry, cogl_matrix_entry_ref, initialHeap,
        identityEntry, evaluatorSpec, nonTerminalMat, translationMat, scaleMat,
        Mat4.mul, Mat4.identity, List.getD, trivialRot])⟩

/-- Relation between a heap slot before and after a composite
evaluation: the entry is unchanged except that an invalid Save cache
may have become valid. -/
def CacheExtend (e e' : CoglMatrixEntry) : Prop :=
  e'.ref_count = e.ref_count ∧ e'.parent = e.parent ∧
    (e'.op = e.op ∨ (e.op = .save none ∧ ∃ c, e'.op = .save (some c)))

theorem entryGetAux_heap_effect (G : RotModel) :
    ∀ (fuel : Nat) (h : Heap) (cur : Option Nat) (m : Mat4) (h1 : Heap) (v : Mat4),
      entryGetAux G fuel h cur m = some (h1, v) →
      h1.entries.length = h.entries.length ∧
      (∀ j, h.lookup j = none → h1.lookup j = none) ∧
      (∀ j e, h.lookup j = some e → ∃ e', h1.lookup j = some e' ∧ CacheExtend e e') := by
  intro fuel
  induction fuel with
  | zero => intro h cur m h1 v hres; simp [entryGetAux] at hres
  | succ fuel ih =>
    intro h cur m h1 v hres
    have triv : ∀ hh : Heap, hh = h1 → h1.entries.length = h.entries.length →
        h = h1 →
        h1.entries.length = h.entries.length ∧
        (∀ j, h.lookup j = none → h1.lookup j = none) ∧
        (∀ j e, h.lookup j = some e → ∃ e', h1.lookup j = some e' ∧ CacheExtend e e') := by
      intro hh _ hlen heq
      subst heq
      exact ⟨rfl, fun j hj => hj, fun j e he => ⟨e, he, rfl, rfl, Or.inl rfl⟩⟩
    cases cur with
    | none =>
      simp only [entryGetAux, Option.some_inj] at hres
      have : h = h1 := congrArg Prod.fst hres
      exact triv h1 rfl (by rw [this]) this
    | some i =>
      cases hl : h.lookup i with
      | none => simp [entryGetAux, hl] at hres
      | some e =>
        cases hop : e.op with
        | loadIdentity =>
          simp only [entryGetAux, hl, hop, Option.some_inj] at hres
          have : h = h1 := congrArg Prod.fst hres
          exact triv h1 rfl (by rw [this]) this
        | load mm =>
          simp only [entryGetAux, hl, hop, Option.some_inj] at hres
          have : h = h1 := congrArg Prod.fst hres
          exact triv h1 rfl (by rw [this]) this
        | translate t =>
          simp only [entryGetAux, hl, hop] at hres
          exact ih h e.parent _ h1 v hres
        | rotate a ax =>
          simp only [entryGetAux, hl, hop] at hres
          exact ih h e.parent _ h1 v hres
        | rotateEuler u =>
          simp only [entryGetAux, hl, hop] at hres
          exact ih h e.parent _ h1 v hres
        | scale x y z =>
          simp only [entryGetAux, hl, hop] at hres
          exact ih h e.parent _ h1 v hres
        | multiply mm =>
          simp only [entryGetAux, hl, hop] at hres
          exact ih h e.parent _ h1 v hres
        | save cache =>
          cases cache with
          | some c =>
            simp only [entryGetAux, hl, hop, Option.some_inj] at hres
            have : h = h1 := congrArg Prod.fst hres
            exact triv h1 rfl (by rw [this]) this
          | none =>
            cases hp : e.parent with
            | none => simp [entryGetAux, hl, hop, hp] at hres
            | some p =>
              cases hrec : entryGetAux G fuel h (some p) Mat4.identity with
              | none => simp [entryGetAux, hl, hop, hp, hrec] at hres
              | some r =>
                obtain ⟨hr, c⟩ := r
                obtain ⟨hlen, hnone, hsome⟩ := ih h (some p) Mat4.identity hr c hrec
                have hres' : h1 = hr.modifyEntry i
                    (fun en => { en with op := setSaveCache en.op c }) := by
                  simp only [entryGetAux, hl, hop, hp, hrec, Option.some_inj] at hres
                  exact (congrArg Prod.fst hres).symm
                subst hres'
                refine ⟨by rw [Heap.length_modify]; exact hlen, ?_, ?_⟩
                · intro j hj
                  have hij : j ≠ i := by
                    intro hji; rw [hji, hl] at hj; exact Option.noConfusion hj
                  rw [Heap.lookup_modify_other _ hij]
                  exact hnone j hj
                · intro j e0 he0
                  by_cases hij : j = i
                  · subst hij
                    have he0e : e0 = e := by rw [hl] at he0; exact (Option.some_inj.mp he0).symm
                    subst he0e
                    obtain ⟨e'', he'', hrc, hpar, hopd⟩ := hsome j e0 he0
                    refine ⟨{ e'' with op := setSaveCache e''.op c },
                      Heap.lookup_modify_self he'' _, hrc, hpar, Or.inr ⟨hop, c, ?_⟩⟩
                    rcases hopd with hsame | ⟨_, c', hc'⟩
                    · rw [hsame, hop]; rfl
                    · rw [hc']; rfl
                  · obtain ⟨e'', he'', hce⟩ := hsome j e0 he0
                    exact ⟨e'', by rw [Heap.lookup_modify_other _ hij]; exact he'', hce⟩

theorem entry_get_ptr_eq (G : RotModel) (h : Heap) (e : Option Nat)
    (h1 : Heap) (m : Mat4) (p : Mat4)
    (hres : cogl_matrix_entry_get G h e = some (h1, m, some p)) : p = m := by
  cases e with
  | none => simp [cogl_matrix_entry_get] at hres
  | some i =>
    cases haux : entryGetAux G (h.entries.length + 1) h (some i) Mat4.identity with
    | none => simp [cogl_matrix_entry_get, haux] at hres
    | some r =>
      obtain ⟨h1', m'⟩ := r
      simp only [cogl_matrix_entry_get, haux, Option.some_inj] at hres
      cases hl : h.lookup i with
      | none => simp [entryGetAux, hl] at haux
      | some e0 =>
        cases hop : e0.op with
        | translate t => simp [hl, hop] at hres
        | rotate a ax => simp [hl, hop] at hres
        | rotateEuler u => simp [hl, hop] at hres
        | scale x y z => simp [hl, hop] at hres
        | multiply mm => simp [hl, hop] at hres
        | loadIdentity =>
          simp only [entryGetAux, hl, hop, Option.some_inj] at haux
          have hh : h = h1' := congrArg Prod.fst haux
          rw [← hh] at hres
          simp [hl, hop] at hres
        | load mm =>
          simp only [entryGetAux, hl, hop, Option.some_inj] at haux
          have hh : h = h1' := congrArg Prod.fst haux
          have hm : graphene_matrix_multiply Mat4.identity mm = m' :=
            congrArg Prod.snd haux
          rw [← hh] at hres
          simp [hl, hop] at hres
          obtain ⟨h1e, hm2, hp2⟩ := hres
          subst_vars
          simp [graphene_matrix_multiply, Mat4.identity_mul]
        | save cache =>
          cases cache with
          | some c =>
            simp only [entryGetAux, hl, hop, Option.some_inj] at haux
            have hh : h = h1' := congrArg Prod.fst haux
            have hm : graphene_matrix_multiply Mat4.identity c = m' :=
              congrArg Prod.snd haux
            rw [← hh] at hres
            simp [hl, hop] at hres
            obtain ⟨h1e, hm2, hp2⟩ := hres
            subst_vars
            simp [graphene_matrix_multiply, Mat4.identity_mul]
          | none =>
            cases hp : e0.parent with
            | none => simp [entryGetAux, hl, hop, hp] at haux
            | some pp =>
              cases hrec : entryGetAux G h.entries.length h (some pp) Mat4.identity with
              | none => simp [entryGetAux, hl, hop, hp, hrec] at haux
              | some rr =>
                obtain ⟨hr, c⟩ := rr
                simp only [entryGetAux, hl, hop, hp, hrec, Option.some_inj] at haux
                have hh : hr.modifyEntry i
                    (fun en => { en with op := setSaveCache en.op c }) = h1' :=
                  congrArg Prod.fst haux
                have hm : graphene_matrix_multiply Mat4.identity c = m' :=
                  congrArg Prod.snd haux
                obtain ⟨-, -, hsome⟩ :=
                  entryGetAux_heap_effect G h.entries.length h (some pp)
                    Mat4.identity hr c hrec
                obtain ⟨e'', he'', -, -, hopd⟩ := hsome i e0 hl
                have hlook : h1'.lookup i = some { e'' with op := .save (some c) } := by
                  rw [← hh]
                  have hms := Heap.lookup_modify_self he''
                    (fun en => { en with op := setSaveCache en.op c })
                  rw [hms]
                  rcases hopd with hsame | ⟨-, c', hc'⟩
                  · rw [hsame, hop]; rfl
                  · rw [hc']; rfl
                simp [hl, hop, hlook] at hres
                obtain ⟨h1e, hm2, hp2⟩ := hres
                subst_vars
                simp [graphene_matrix_multiply, Mat4.identity_mul]

/-- A fresh stack after scale(0,0,0): its composite matrix is singular. -/
def exampleZeroScale : Heap × CoglMatrixStack :=
  let r0 := cogl_matrix_stack_new initialHeap 0
  cogl_matrix_stack_scale r0.1 r0.2 0 0 0

/-- C8: get_inverse computes the composite via cogl_matrix_stack_get
and inverts it (inverting the internally returned cached pointer when
present, whose value equals the written composite), succeeding exactly
when the composite has nonzero determinant; in particular a singular
composite yields a failure result, never a crash or a garbage matrix,
as the concrete scale(0,0,0) stack shows. -/
theorem get_inverse_spec :
    (∀ (G : RotModel) (h : Heap) (st : CoglMatrixStack) (h1 : Heap) (m : Mat4)
        (ptr : Option Mat4),
      cogl_matrix_stack_get G h st = some (h1, m, ptr) →
      cogl_matrix_stack_get_inverse G h st = some (h1, graphene_matrix_inverse m) ∧
      ((graphene_matrix_inverse m).isSome ↔ m.det ≠ 0)) ∧
    cogl_matrix_stack_get_inverse trivialRot exampleZeroScale.1 exampleZeroScale.2 =
      some (exampleZeroScale.1, none) := by
  constructor
  · intro G h st h1 m ptr hget
    constructor
    · unfold cogl_matrix_stack_get_inverse
      rw [hget]
      cases hptr : ptr with
      | none => rfl
      | some pv =>
        have : pv = m := by
          apply entry_get_ptr_eq G h st.last_entry h1 m pv
          rw [← hptr]
          exact hget
        rw [this]
    · by_cases hd : m.det = 0 <;> simp [graphene_matrix_inverse, hd]
  · norm_num [exampleZeroScale, cogl_matrix_stack_new, cogl_matrix_stack_scale,
      cogl_matrix_stack_get_inverse, cogl_matrix_stack_get, cogl_matrix_entry_get,
      entryGetAux, _cogl_matrix_stack_push_operation, Heap.alloc, Heap.lookup,
      Heap.modifyEntry, cogl_matrix_entry_ref, initialHeap, identityEntry,
      graphene_matrix_scale, graphene_matrix_inverse, Mat4.det, det3,
      scaleMat, Mat4.mul, Mat4.identity, List.getD, trivialRot]

/-- Witness for C8: the general inverse theorem applied to the concrete
singular scale(0,0,0) stack (the composite written for it is the zero
scale matrix, whose determinant is zero, so no inverse results). -/
theorem get_inverse_spec_witness :
    cogl_matrix_stack_get trivialRot exampleZeroScale.1 exampleZeroScale.2 =
      some (exampleZeroScale.1, (scaleMat 0 0 0).mul Mat4.identity, none) ∧
    cogl_matrix_stack_get_inverse trivialRot exampleZeroScale.1 exampleZeroScale.2 =
      some (exampleZeroScale.1,
        graphene_matrix_inverse ((scaleMat 0 0 0).mul Mat4.identity)) ∧
    ((graphene_matrix_inverse ((scaleMat 0 0 0).mul Mat4.identity)).isSome ↔
      ((scaleMat 0 0 0).mul Mat4.identity).det ≠ 0) := by
  have hget : cogl_matrix_stack_get trivialRot exampleZeroScale.1 exampleZeroScale.2 =
      some (exampleZeroScale.1, (scaleMat 0 0 0).mul Mat4.identity, none) := by
    norm_num [exampleZeroScale, cogl_matrix_stack_new, cogl_matrix_stack_scale,
      cogl_matrix_stack_get, cogl_matrix_entry_get, entryGetAux,
      _cogl_matrix_stack_push_operation, Heap.alloc, Heap.lookup,
      Heap.modifyEntry, cogl_matrix_entry_ref, initialHeap, identityEntry,
      graphene_matrix_scale, scaleMat, Mat4.mul, Mat4.identity, List.getD, trivialRot]
  exact ⟨hget, (get_inverse_spec.1 trivialRot exampleZeroScale.1 exampleZeroScale.2
    exampleZeroScale.1 ((scaleMat 0 0 0).mul Mat4.identity) none hget).1,
    (get_inverse_spec.1 trivialRot exampleZeroScale.1 exampleZeroScale.2
    exampleZeroScale.1 ((scaleMat 0 0 0).mul Mat4.identity) none hget).2⟩

theorem unrefAux_length :
    ∀ (fuel : Nat) (h : Heap) (cur : Option Nat),
      (unrefAux fuel h cur).entries.length = h.entries.length := by
  intro fuel
  induction fuel with
  | zero => intro h cur; rfl
  | succ fuel ih =>
    intro h cur
    cases cur with
    | none => rfl
    | some i =>
      cases hl : h.lookup i with
      | none => simp [unrefAux, hl]
      | some e =>
        by_cases hrc : e.ref_count ≤ 1
        · simp only [unrefAux, hl, if_pos hrc]
          rw [ih, Heap.length_free]
        · simp only [unrefAux, hl, if_neg hrc]
          rw [Heap.length_modify]

theorem unrefAux_none :
    ∀ (fuel : Nat) (h : Heap) (cur : Option Nat) (j : Nat),
      h.lookup j = none → (unrefAux fuel h cur).lookup j = none := by
  intro fuel
  induction fuel with
  | zero => intro h cur j hj; exact hj
  | succ fuel ih =>
    intro h cur j hj
    cases cur with
    | none => exact hj
    | some i =>
      cases hl : h.lookup i with
      | none => simp [unrefAux, hl, hj]
      | some e =>
        by_cases hrc : e.ref_count ≤ 1
        · simp only [unrefAux, hl, if_pos hrc]
          apply ih
          by_cases hij : j = i
          · subst hij; exact Heap.lookup_free_self h j
          · rw [Heap.lookup_free_other h hij]; exact hj
        · simp only [unrefAux, hl, if_neg hrc]
          have hij : j ≠ i := by
            intro hji; rw [hji, hl] at hj; exact Option.noConfusion hj
          rw [Heap.lookup_modify_other h hij]
          exact hj

theorem unrefAux_op_preserve :
    ∀ (fuel : Nat) (h : Heap) (cur : Option Nat) (j : Nat) (e : CoglMatrixEntry),
      h.lookup j = some e →
      (unrefAux fuel h cur).lookup j = none ∨
      ∃ e', (unrefAux fuel h cur).lookup j = some e' ∧ e'.op = e.op ∧
        e'.parent = e.parent := by
  intro fuel
  induction fuel with
  | zero => intro h cur j e hj; exact Or.inr ⟨e, hj, rfl, rfl⟩
  | succ fuel ih =>
    intro h cur j e hj
    cases cur with
    | none => exact Or.inr ⟨e, hj, rfl, rfl⟩
    | some i =>
      cases hl : h.lookup i with
      | none => simp only [unrefAux, hl]; exact Or.inr ⟨e, hj, rfl, rfl⟩
      | some e0 =>
        by_cases hrc : e0.ref_count ≤ 1
        · simp only [unrefAux, hl, if_pos hrc]
          by_cases hij : j = i
          · subst hij
            left
            apply unrefAux_none
            exact Heap.lookup_free_self h j
          · apply ih
            rw [Heap.lookup_free_other h hij]
            exact hj
        · simp only [unrefAux, hl, if_neg hrc]
          by_cases hij : j = i
          · subst hij
            rw [hl] at hj
            obtain rfl := Option.some_inj.mp hj
            right
            exact ⟨_, Heap.lookup_modify_self hl _, rfl, rfl⟩
          · right
            exact ⟨e, by rw [Heap.lookup_modify_other h hij]; exact hj, rfl, rfl⟩

/-- The state-changing operations of the public stack API. -/
inductive StackOp where
  | mutate (op : MutOp)
  | push
  | pop
  | getMatrix (G : RotModel)
  | getInverse (G : RotModel)

def applyStackOp (h : Heap) (st : CoglMatrixStack) :
    StackOp → Option (Heap × CoglMatrixStack)
  | .mutate op => applyMutOp h st op
  | .push => some (cogl_matrix_stack_push h st)
  | .pop => cogl_matrix_stack_pop h st
  | .getMatrix G => (cogl_matrix_stack_get G h st).map (fun r => (r.1, st))
  | .getInverse G => (cogl_matrix_stack_get_inverse G h st).map (fun r => (r.1, st))

theorem ref_op_preserve (h : Heap) (cur : Option Nat) (j : Nat) (e : CoglMatrixEntry)
    (hj : h.lookup j = some e) :
    ∃ e', (cogl_matrix_entry_ref h cur).lookup j = some e' ∧ e'.op = e.op ∧
      e'.parent = e.parent := by
  cases cur with
  | none => exact ⟨e, hj, rfl, rfl⟩
  | some i =>
    by_cases hij : j = i
    · subst hij
      exact ⟨_, Heap.lookup_ref_self hj, rfl, rfl⟩
    · exact ⟨e, by rw [Heap.lookup_ref_other h hij]; exact hj, rfl, rfl⟩

/-- The operation field is unchanged, or an invalid Save cache became
valid. -/
def OpExtend (o o' : CoglMatrixOp) : Prop :=
  o' = o ∨ (o = .save none ∧ ∃ c, o' = .save (some c))

/-- Effect of one public stack operation on a single live slot: the slot
is freed, or its operation tag and payload survive except that an
invalid Save cache may become valid. -/
theorem stackOp_slot_effect (h : Heap) (st : CoglMatrixStack) (op : StackOp)
    (h' : Heap) (st' : CoglMatrixStack)
    (happ : applyStackOp h st op = some (h', st'))
    (j : Nat) (e : CoglMatrixEntry) (hj : h.lookup j = some e) :
    h'.lookup j = none ∨ ∃ e', h'.lookup j = some e' ∧ OpExtend e.op e'.op := by
  have hjlt : j < h.entries.length := h.lt_of_lookup_isSome (by simp [hj])
  have appendCase : ∀ op0 : CoglMatrixOp,
      (_cogl_matrix_stack_push_operation h st op0).1.lookup j = some e := by
    intro op0
    rw [push_operation_eq]
    rw [Heap.lookup_alloc_old h _ (by omega)]
    exact hj
  have replaceCase : ∀ (op0 : CoglMatrixOp) (r : Heap × CoglMatrixStack × Nat),
      _cogl_matrix_stack_push_replacement_entry h st op0 = some r →
      r.1.lookup j = none ∨ ∃ e', r.1.lookup j = some e' ∧ OpExtend e.op e'.op := by
    intro op0 r hrep
    unfold _cogl_matrix_stack_push_replacement_entry at hrep
    cases hole : st.last_entry with
    | none =>
      simp only [hole] at hrep
      exact Option.noConfusion hrep
    | some old_top =>
      simp only [hole] at hrep
      cases htgt : replacementFindTarget (h.entries.length + 1) h old_top with
      | none =>
        simp only [htgt] at hrep
        exact Option.noConfusion hrep
      | some new_top =>
        simp only [htgt, Option.some_inj] at hrep
        obtain rfl := hrep.symm
        set h1 := cogl_matrix_entry_ref h (some new_top) with hh1
        set h2 := cogl_matrix_entry_unref h1 (some old_top) with hh2
        have hlen1 : h1.entries.length = h.entries.length := Heap.length_ref h _
        have hlen2 : h2.entries.length = h1.entries.length := unrefAux_length _ _ _
        obtain ⟨e1, he1, hop1, hpar1⟩ := ref_op_preserve h (some new_top) j e hj
        rcases unrefAux_op_preserve (h1.entries.length + 1) h1 (some old_top) j e1 he1
          with hnone | ⟨e2, he2, hop2, hpar2⟩
        · left
          rw [push_operation_eq]
          rw [Heap.lookup_alloc_old h2 _ (by omega)]
          exact hnone
        · right
          refine ⟨e2, ?_, Or.inl (hop2.trans hop1)⟩
          rw [push_operation_eq]
          rw [Heap.lookup_alloc_old h2 _ (by omega)]
          exact he2
  cases op with
  | mutate mop =>
    cases mop with
    | translate x y z =>
      obtain rfl : (cogl_matrix_stack_translate h st x y z).1 = h' := by
        simpa [applyStackOp, applyMutOp] using congrArg (fun r => r.map Prod.fst) happ
      exact Or.inr ⟨e, appendCase _, Or.inl rfl⟩
    | rotate a x y z =>
      obtain rfl : (cogl_matrix_stack_rotate h st a x y z).1 = h' := by
        simpa [applyStackOp, applyMutOp] using congrArg (fun r => r.map Prod.fst) happ
      exact Or.inr ⟨e, appendCase _, Or.inl rfl⟩
    | rotateEuler u =>
      obtain rfl : (cogl_matrix_stack_rotate_euler h st u).1 = h' := by
        simpa [applyStackOp, applyMutOp] using congrArg (fun r => r.map Prod.fst) happ
      exact Or.inr ⟨e, appendCase _, Or.inl rfl⟩
    | scale x y z =>
      obtain rfl : (cogl_matrix_stack_scale h st x y z).1 = h' := by
        simpa [applyStackOp, applyMutOp] using congrArg (fun r => r.map Prod.fst) happ
      exact Or.inr ⟨e, appendCase _, Or.inl rfl⟩
    | multiply m =>
      obtain rfl : (cogl_matrix_stack_multiply h st m).1 = h' := by
        simpa [applyStackOp, applyMutOp] using congrArg (fun r => r.map Prod.fst) happ
      exact Or.inr ⟨e, appendCase _, Or.inl rfl⟩
    | loadIdentity =>
      simp only [applyStackOp, applyMutOp, cogl_matrix_stack_load_identity] at happ
      cases hrep : _cogl_matrix_stack_push_replacement_entry h st .loadIdentity with
      | none => rw [hrep] at happ; exact Option.noConfusion happ
      | some r =>
        rw [hrep] at happ
        obtain rfl : r.1 = h' := congrArg Prod.fst (Option.some_inj.mp happ)
        exact replaceCase _ r hrep
    | set m =>
      simp only [applyStackOp, applyMutOp, cogl_matrix_stack_set] at happ
      cases hrep : _cogl_matrix_stack_push_replacement_entry h st (.load m) with
      | none => rw [hrep] at happ; exact Option.noConfusion happ
      | some r =>
        rw [hrep] at happ
        obtain rfl : r.1 = h' := congrArg Prod.fst (Option.some_inj.mp happ)
        exact replaceCase _ r hrep
  | push =>
    obtain rfl : (cogl_matrix_stack_push h st).1 = h' := by
      simpa [applyStackOp] using congrArg (fun r => r.map Prod.fst) happ
    exact Or.inr ⟨e, appendCase _, Or.inl rfl⟩
  | pop =>
    simp only [applyStackOp, cogl_matrix_stack_pop] at happ
    cases hole : st.last_entry with
    | none =>
      simp only [hole, Option.some_inj] at happ
      obtain rfl : h = h' := congrArg Prod.fst happ
      exact Or.inr ⟨e, hj, Or.inl rfl⟩
    | some old_top =>
      simp only [hole] at happ
      cases hfs : popFindSave (h.entries.length + 1) h old_top with
      | none =>
        simp only [hfs] at happ
        exact Option.noConfusion happ
      | some sid =>
        simp only [hfs] at happ
        cases hse : h.lookup sid with
        | none =>
          simp only [hse] at happ
          exact Option.noConfusion happ
        | some se =>
          simp only [hse, Option.some_inj] at happ
          obtain rfl : cogl_matrix_entry_unref
              (cogl_matrix_entry_ref h se.parent) (some old_top) = h' :=
            congrArg Prod.fst happ
          obtain ⟨e1, he1, hop1, hpar1⟩ := ref_op_preserve h se.parent j e hj
          rcases unrefAux_op_preserve _ _ (some old_top) j e1 he1
            with hnone | ⟨e2, he2, hop2, hpar2⟩
          · exact Or.inl hnone
          · exact Or.inr ⟨e2, he2, Or.inl (hop2.trans hop1)⟩
  | getMatrix G =>
    simp only [applyStackOp] at happ
    cases hget : cogl_matrix_stack_get G h st with
    | none => rw [hget] at happ; exact Option.noConfusion happ
    | some r =>
      rw [hget] at happ
      obtain rfl : r.1 = h' := congrArg Prod.fst (Option.some_inj.mp happ)
      unfold cogl_matrix_stack_get cogl_matrix_entry_get at hget
      cases hole : st.last_entry with
      | none =>
        simp only [hole] at hget
        exact Option.noConfusion hget
      | some i =>
        simp only [hole] at hget
        cases haux : entryGetAux G (h.entries.length + 1) h (some i) Mat4.identity with
        | none =>
          simp only [haux] at hget
          exact Option.noConfusion hget
        | some rr =>
          simp only [haux, Option.some_inj] at hget
          obtain hr1 : rr.1 = r.1 := congrArg Prod.fst hget
          obtain ⟨-, -, hsome⟩ :=
            entryGetAux_heap_effect G (h.entries.length + 1) h (some i)
              Mat4.identity rr.1 rr.2 (by rw [haux])
          obtain ⟨e', he', hce⟩ := hsome j e hj
          rw [hr1] at he'
          exact Or.inr ⟨e', he', hce.2.2⟩
  | getInverse G =>
    simp only [applyStackOp] at happ
    cases hget : cogl_matrix_stack_get_inverse G h st with
    | none => rw [hget] at happ; exact Option.noConfusion happ
    | some r =>
      rw [hget] at happ
      obtain rfl : r.1 = h' := congrArg Prod.fst (Option.some_inj.mp happ)
      unfold cogl_matrix_stack_get_inverse at hget
      cases hg2 : cogl_matrix_stack_get G h st with
      | none =>
        simp only [hg2] at hget
        exact Option.noConfusion hget
      | some r2 =>
        simp only [hg2] at hget
        obtain ⟨h2, m2, ptr2⟩ := r2
        have hr1 : h2 = r.1 := by
          cases ptr2 with
          | none => exact congrArg Prod.fst (Option.some_inj.mp hget)
          | some pv => exact congrArg Prod.fst (Option.some_inj.mp hget)
        unfold cogl_matrix_stack_get cogl_matrix_entry_get at hg2
        cases hole : st.last_entry with
        | none =>
          simp only [hole] at hg2
          exact Option.noConfusion hg2
        | some i =>
          simp only [hole] at hg2
          cases haux : entryGetAux G (h.entries.length + 1) h (some i) Mat4.identity with
          | none =>
            simp only [haux] at hg2
            exact Option.noConfusion hg2
          | some rr =>
            simp only [haux, Option.some_inj] at hg2
            have hr2 : rr.1 = h2 := congrArg Prod.fst hg2
            obtain ⟨-, -, hsome⟩ :=
              entryGetAux_heap_effect G (h.entries.length + 1) h (some i)
                Mat4.identity rr.1 rr.2 (by rw [haux])
            obtain ⟨e', he', hce⟩ := hsome j e hj
            rw [hr2, hr1] at he'
            exact Or.inr ⟨e', he', hce.2.2⟩

/-- C3: the Save cache is write-once-then-frozen.  (a) push creates the
Save entry with an invalid cache; (b) an evaluation reaching a Save
whose cache is invalid recursively evaluates the parent chain, stores
the result in the cache and marks it valid (reference count and parent
untouched); (c) an evaluation reaching a Save with a valid cache reuses
the cached value and does not touch the heap at all (no re-walk);
(d) no public stack operation ever returns a valid cache to invalid:
a valid Save slot either is freed by its owners dropping it or still
holds exactly the same valid cache afterwards. -/
theorem save_cache_write_once :
    (∀ (h : Heap) (st : CoglMatrixStack),
      (cogl_matrix_stack_push h st).1.lookup h.entries.length =
        some { ref_count := 1, op := .save none, parent := st.last_entry }) ∧
    (∀ (G : RotModel) (fuel : Nat) (h : Heap) (i p : Nat) (e : CoglMatrixEntry)
        (hr : Heap) (c : Mat4) (m : Mat4),
      h.lookup i = some e → e.op = .save none → e.parent = some p →
      entryGetAux G fuel h (some p) Mat4.identity = some (hr, c) →
      entryGetAux G (fuel + 1) h (some i) m =
        some (hr.modifyEntry i (fun en => { en with op := setSaveCache en.op c }),
          graphene_matrix_multiply m c) ∧
      ∃ e', (hr.modifyEntry i
          (fun en => { en with op := setSaveCache en.op c })).lookup i = some e' ∧
        e'.op = .save (some c) ∧ e'.ref_count = e.ref_count ∧
        e'.parent = e.parent) ∧
    (∀ (G : RotModel) (fuel : Nat) (h : Heap) (i : Nat) (e : CoglMatrixEntry)
        (c : Mat4) (m : Mat4),
      h.lookup i = some e → e.op = .save (some c) →
      entryGetAux G (fuel + 1) h (some i) m = some (h, graphene_matrix_multiply m c)) ∧
    (∀ (h : Heap) (st : CoglMatrixStack) (op : StackOp) (h' : Heap)
        (st' : CoglMatrixStack) (j : Nat) (e : CoglMatrixEntry) (c : Mat4),
      applyStackOp h st op = some (h', st') →
      h.lookup j = some e → e.op = .save (some c) →
      h'.lookup j = none ∨ ∃ e', h'.lookup j = some e' ∧ e'.op = .save (some c)) := by
  refine ⟨?_, ?_, ?_, ?_⟩
  · intro h st
    rw [cogl_matrix_stack_push, push_operation_eq]
    exact Heap.lookup_alloc_new h _
  · intro G fuel h i p e hr c m hl hop hp hrec
    constructor
    · simp [entryGetAux, hl, hop, hp, hrec]
    · obtain ⟨-, -, hsome⟩ :=
        entryGetAux_heap_effect G fuel h (some p) Mat4.identity hr c hrec
      obtain ⟨e'', he'', hrc, hpar, hopd⟩ := hsome i e hl
      refine ⟨{ e'' with op := setSaveCache e''.op c },
        Heap.lookup_modify_self he'' _, ?_, hrc, hpar⟩
      rcases hopd with hsame | ⟨-, c', hc'⟩
      · rw [hsame, hop]; rfl
      · rw [hc']; rfl
  · intro G fuel h i e c m hl hop
    simp [entryGetAux, hl, hop]
  · intro h st op h' st' j e c happ hl hop
    rcases stackOp_slot_effect h st op h' st' happ j e hl with hnone | ⟨e', he', hoe⟩
    · exact Or.inl hnone
    · rcases hoe with hsame | ⟨hbad, -⟩
      · exact Or.inr ⟨e', he', by rw [hsame, hop]⟩
      · rw [hop] at hbad
        exact absurd hbad (by simp)

/-- A two-entry heap: the shared identity and a Save with invalid cache. -/
def cacheHeapInvalid : Heap :=
  ⟨[some identityEntry, some { ref_count := 1, op := .save none, parent := some 0 }]⟩

/-- A two-entry heap: the shared identity and a Save caching the identity. -/
def cacheHeapValid : Heap :=
  ⟨[some identityEntry,
    some { ref_count := 1, op := .save (some Mat4.identity), parent := some 0 }]⟩

/-- Witness for C3: the cache theorem applied to concrete Save entries,
with every hypothesis discharged on explicit two-entry heaps. -/
theorem save_cache_write_once_witness :
    ((cogl_matrix_stack_push cacheHeapValid ⟨some 1⟩).1.lookup 2 =
      some { ref_count := 1, op := .save none, parent := some 1 }) ∧
    (cacheHeapInvalid.lookup 1 =
        some { ref_count := 1, op := .save none, parent := some 0 } ∧
      entryGetAux trivialRot 2 cacheHeapInvalid (some 0) Mat4.identity =
        some (cacheHeapInvalid, Mat4.identity) ∧
      entryGetAux trivialRot 3 cacheHeapInvalid (some 1) Mat4.identity =
        some (cacheHeapInvalid.modifyEntry 1
            (fun en => { en with op := setSaveCache en.op Mat4.identity }),
          graphene_matrix_multiply Mat4.identity Mat4.identity)) ∧
    (cacheHeapValid.lookup 1 =
        some { ref_count := 1, op := .save (some Mat4.identity), parent := some 0 } ∧
      entryGetAux trivialRot 3 cacheHeapValid (some 1) Mat4.identity =
        some (cacheHeapValid, graphene_matrix_multiply Mat4.identity Mat4.identity)) ∧
    (applyStackOp cacheHeapValid ⟨some 1⟩ .push =
        some (cogl_matrix_stack_push cacheHeapValid ⟨some 1⟩) ∧
      ((cogl_matrix_stack_push cacheHeapValid ⟨some 1⟩).1.lookup 1 = none ∨
        ∃ e', (cogl_matrix_stack_push cacheHeapValid ⟨some 1⟩).1.lookup 1 = some e' ∧
          e'.op = .save (some Mat4.identity))) := by
  have hb := (save_cache_write_once.2.1 trivialRot 2 cacheHeapInvalid 1 0
    { ref_count := 1, op := .save none, parent := some 0 } cacheHeapInvalid
    Mat4.identity Mat4.identity (by decide) (by decide) (by decide) (by decide)).1
  have hc := save_cache_write_once.2.2.1 trivialRot 2 cacheHeapValid 1
    { ref_count := 1, op := .save (some Mat4.identity), parent := some 0 }
    Mat4.identity Mat4.identity (by decide) (by decide)
  have hd := save_cache_write_once.2.2.2 cacheHeapValid ⟨some 1⟩ .push
    (cogl_matrix_stack_push cacheHeapValid ⟨some 1⟩).1
    (cogl_matrix_stack_push cacheHeapValid ⟨some 1⟩).2 1
    { ref_count := 1, op := .save (some Mat4.identity), parent := some 0 }
    Mat4.identity rfl (by decide) (by decide)
  have ha := save_cache_write_once.1 cacheHeapValid ⟨some 1⟩
  exact ⟨ha, ⟨by decide, by decide, hb⟩, ⟨by decide, hc⟩, rfl, hd⟩

/-- A heap holding two distinct LoadIdentity entries. -/
def twoIdentityHeap : Heap :=
  ⟨[some identityEntry, some identityEntry]⟩

/-- C7: cogl_matrix_entry_equal walks both chains in lockstep skipping
Save entries: it returns true when both sides reach LoadIdentity
entries; it returns false when the two operation tags differ; on Load
entries it returns exactly the matrix comparison, for arbitrary
ancestors (they are never examined); a chain that is exhausted while
the other still has entries compares false; Translate entries compare
their payload exactly, recursing on both parents on equality and
returning false on inequality; and two distinct LoadIdentity instances
compare equal. -/
theorem cogl_matrix_entry_equal_spec :
    (∀ (h : Heap) (i0 i1 j0 j1 : Nat) (e0 e1 : CoglMatrixEntry),
      _cogl_matrix_entry_skip_saves (h.entries.length + 1) h i0 = some j0 →
      _cogl_matrix_entry_skip_saves (h.entries.length + 1) h i1 = some j1 →
      h.lookup j0 = some e0 → h.lookup j1 = some e1 →
      e0.op = .loadIdentity → e1.op = .loadIdentity →
      cogl_matrix_entry_equal h (some i0) (some i1) = some true) ∧
    (∀ (h : Heap) (i0 i1 j0 j1 : Nat) (e0 e1 : CoglMatrixEntry),
      _cogl_matrix_entry_skip_saves (h.entries.length + 1) h i0 = some j0 →
      _cogl_matrix_entry_skip_saves (h.entries.length + 1) h i1 = some j1 →
      h.lookup j0 = some e0 → h.lookup j1 = some e1 →
      e0.op.tag ≠ e1.op.tag →
      cogl_matrix_entry_equal h (some i0) (some i1) = some false) ∧
    (∀ (h : Heap) (i0 i1 j0 j1 : Nat) (e0 e1 : CoglMatrixEntry) (m0 m1 : Mat4),
      _cogl_matrix_entry_skip_saves (h.entries.length + 1) h i0 = some j0 →
      _cogl_matrix_entry_skip_saves (h.entries.length + 1) h i1 = some j1 →
      h.lookup j0 = some e0 → h.lookup j1 = some e1 →
      e0.op = .load m0 → e1.op = .load m1 →
      cogl_matrix_entry_equal h (some i0) (some i1) =
        some (graphene_matrix_equal m0 m1)) ∧
    (∀ (h : Heap) (i : Nat),
      cogl_matrix_entry_equal h none (some i) = some false ∧
      cogl_matrix_entry_equal h (some i) none = some false) ∧
    (∀ (h : Heap) (i0 i1 j0 j1 : Nat) (e0 e1 : CoglMatrixEntry) (p0 p1 : Point3),
      _cogl_matrix_entry_skip_saves (h.entries.length + 1) h i0 = some j0 →
      _cogl_matrix_entry_skip_saves (h.entries.length + 1) h i1 = some j1 →
      h.lookup j0 = some e0 → h.lookup j1 = some e1 →
      e0.op = .translate p0 → e1.op = .translate p1 →
      (p0 ≠ p1 → cogl_matrix_entry_equal h (some i0) (some i1) = some false) ∧
      (j0 ≠ j1 → p0 = p1 → cogl_matrix_entry_equal h (some i0) (some i1) =
        entryEqualAux h h.entries.length e0.parent e1.parent)) ∧
    cogl_matrix_entry_equal twoIdentityHeap (some 0) (some 1) = some true := by
  refine ⟨?_, ?_, ?_, ?_, ?_, ?_⟩
  · intro h i0 i1 j0 j1 e0 e1 hsk0 hsk1 hl0 hl1 hop0 hop1
    by_cases hjj : j0 = j1
    · simp [cogl_matrix_entry_equal, entryEqualAux, hsk0, hsk1, hjj]
    · simp [cogl_matrix_entry_equal, entryEqualAux, hsk0, hsk1, hjj, hl0, hl1,
        hop0, hop1, CoglMatrixOp.tag]
  · intro h i0 i1 j0 j1 e0 e1 hsk0 hsk1 hl0 hl1 htag
    have hjj : j0 ≠ j1 := by
      intro hji
      rw [hji, hl1] at hl0
      obtain rfl := Option.some_inj.mp hl0
      exact htag rfl
    simp [cogl_matrix_entry_equal, entryEqualAux, hsk0, hsk1, hjj, hl0, hl1, htag]
  · intro h i0 i1 j0 j1 e0 e1 m0 m1 hsk0 hsk1 hl0 hl1 hop0 hop1
    by_cases hjj : j0 = j1
    · rw [hjj, hl1] at hl0
      obtain rfl := Option.some_inj.mp hl0
      rw [hop0] at hop1
      obtain rfl : m0 = m1 := by
        injection hop1
      simp [cogl_matrix_entry_equal, entryEqualAux, hsk0, hsk1, hjj,
        graphene_matrix_equal]
    · simp [cogl_matrix_entry_equal, entryEqualAux, hsk0, hsk1, hjj, hl0, hl1,
        hop0, hop1, CoglMatrixOp.tag]
  · intro h i
    constructor <;> simp [cogl_matrix_entry_equal, entryEqualAux]
  · intro h i0 i1 j0 j1 e0 e1 p0 p1 hsk0 hsk1 hl0 hl1 hop0 hop1
    constructor
    · intro hpp
      have hjj : j0 ≠ j1 := by
        intro hji
        rw [hji, hl1] at hl0
        obtain rfl := Option.some_inj.mp hl0
        rw [hop0] at hop1
        exact hpp (by injection hop1)
      simp [cogl_matrix_entry_equal, entryEqualAux, hsk0, hsk1, hjj, hl0, hl1,
        hop0, hop1, CoglMatrixOp.tag, graphene_point3d_equal, hpp]
    · intro hjj hpp
      subst hpp
      simp [cogl_matrix_entry_equal, entryEqualAux, hsk0, hsk1, hjj, hl0, hl1,
        hop0, hop1, CoglMatrixOp.tag, graphene_point3d_equal]
  · decide

/-- Witness for C7: the equality theorem applied concretely — two
distinct LoadIdentity entries (slots 0 and 1 of an explicit heap)
compare equal. -/
theorem cogl_matrix_entry_equal_spec_witness :
    _cogl_matrix_entry_skip_saves (twoIdentityHeap.entries.length + 1)
        twoIdentityHeap 0 = some 0 ∧
    _cogl_matrix_entry_skip_saves (twoIdentityHeap.entries.length + 1)
        twoIdentityHeap 1 = some 1 ∧
    twoIdentityHeap.lookup 0 = some identityEntry ∧
    twoIdentityHeap.lookup 1 = some identityEntry ∧
    cogl_matrix_entry_equal twoIdentityHeap (some 0) (some 1) = some true :=
  ⟨by decide, by decide, by decide, by decide,
    cogl_matrix_entry_equal_spec.1 twoIdentityHeap 0 1 0 1 identityEntry
      identityEntry (by decide) (by decide) (by decide) (by decide) rfl rfl⟩

/-- C10: after skipping Save entries on both sides, arriving at the
same node makes cogl_matrix_entry_equal return true immediately — no
payload of that node or of any ancestor is compared (the node and its
chain are arbitrary); in particular equal(a, a) is true for every
non-NULL entry whose Save prefix is well formed. -/
theorem entry_equal_shared_node :
    (∀ (h : Heap) (i0 i1 j : Nat),
      _cogl_matrix_entry_skip_saves (h.entries.length + 1) h i0 = some j →
      _cogl_matrix_entry_skip_saves (h.entries.length + 1) h i1 = some j →
      cogl_matrix_entry_equal h (some i0) (some i1) = some true) ∧
    (∀ (h : Heap) (i j : Nat),
      _cogl_matrix_entry_skip_saves (h.entries.length + 1) h i = some j →
      cogl_matrix_entry_equal h (some i) (some i) = some true) := by
  have main : ∀ (h : Heap) (i0 i1 j : Nat),
      _cogl_matrix_entry_skip_saves (h.entries.length + 1) h i0 = some j →
      _cogl_matrix_entry_skip_saves (h.entries.length + 1) h i1 = some j →
      cogl_matrix_entry_equal h (some i0) (some i1) = some true := by
    intro h i0 i1 j hsk0 hsk1
    simp [cogl_matrix_entry_equal, entryEqualAux, hsk0, hsk1]
  exact ⟨main, fun h i j hsk => main h i i j hsk hsk⟩

/-- Witness for C10: a Save entry (slot 1) whose parent is the shared
identity (slot 0): both walks skip to slot 0, so equal(1, 0) and
equal(1, 1) are true without any payload comparison. -/
theorem entry_equal_shared_node_witness :
    _cogl_matrix_entry_skip_saves (cacheHeapValid.entries.length + 1)
        cacheHeapValid 1 = some 0 ∧
    _cogl_matrix_entry_skip_saves (cacheHeapValid.entries.length + 1)
        cacheHeapValid 0 = some 0 ∧
    cogl_matrix_entry_equal cacheHeapValid (some 1) (some 0) = some true ∧
    cogl_matrix_entry_equal cacheHeapValid (some 1) (some 1) = some true :=
  ⟨by decide, by decide,
    entry_equal_shared_node.1 cacheHeapValid 1 0 0 (by decide) (by decide),
    entry_equal_shared_node.2 cacheHeapValid 1 0 (by decide)⟩

theorem sumTrans_isSome_of_translate (h : Heap) :
    ∀ l : List Nat,
      (∀ i ∈ l, ∃ e, h.lookup i = some e ∧ e.op.isTranslate) →
      ∃ p, sumTrans h l = some p := by
  intro l
  induction l with
  | nil => intro _; exact ⟨⟨0, 0, 0⟩, rfl⟩
  | cons j t ih =>
    intro hall
    obtain ⟨e, he, htr⟩ := hall j (by simp)
    obtain ⟨q, hq⟩ := ih (fun i hi => hall i (by simp [hi]))
    cases hop : e.op with
    | translate p =>
      exact ⟨⟨p.x + q.x, p.y + q.y, p.z + q.z⟩, by simp [sumTrans, he, hop, hq]⟩
    | loadIdentity => rw [hop] at htr; exact absurd htr (by simp [CoglMatrixOp.isTranslate])
    | rotate a ax => rw [hop] at htr; exact absurd htr (by simp [CoglMatrixOp.isTranslate])
    | rotateEuler u => rw [hop] at htr; exact absurd htr (by simp [CoglMatrixOp.isTranslate])
    | scale x y z => rw [hop] at htr; exact absurd htr (by simp [CoglMatrixOp.isTranslate])
    | multiply m => rw [hop] at htr; exact absurd htr (by simp [CoglMatrixOp.isTranslate])
    | load m => rw [hop] at htr; exact absurd htr (by simp [CoglMatrixOp.isTranslate])
    | save c => rw [hop] at htr; exact absurd htr (by simp [CoglMatrixOp.isTranslate])

theorem sumTrans_none_of_mem (h : Heap) :
    ∀ (l : List Nat) (i : Nat) (e : CoglMatrixEntry),
      i ∈ l → h.lookup i = some e → ¬ e.op.isTranslate = true →
      sumTrans h l = none := by
  intro l
  induction l with
  | nil => intro i e hi; exact absurd hi (by simp)
  | cons j t ih =>
    intro i e hi he hnt
    rcases List.mem_cons.mp hi with hij | hit
    · subst hij
      cases hop : e.op with
      | translate p =>
        rw [hop] at hnt
        exact absurd rfl hnt
      | loadIdentity => simp [sumTrans, he, hop]
      | rotate a ax => simp [sumTrans, he, hop]
      | rotateEuler u => simp [sumTrans, he, hop]
      | scale x y z => simp [sumTrans, he, hop]
      | multiply m => simp [sumTrans, he, hop]
      | load m => simp [sumTrans, he, hop]
      | save c => simp [sumTrans, he, hop]
    · have htail := ih i e hit he hnt
      cases hj : h.lookup j with
      | none => simp [sumTrans, hj]
      | some ej =>
        cases hopj : ej.op with
        | translate p => simp [sumTrans, hj, hopj, htail]
        | loadIdentity => simp [sumTrans, hj, hopj]
        | rotate a ax => simp [sumTrans, hj, hopj]
        | rotateEuler u => simp [sumTrans, hj, hopj]
        | scale x y z => simp [sumTrans, hj, hopj]
        | multiply m => simp [sumTrans, hj, hopj]
        | load m => simp [sumTrans, hj, hopj]
        | save c => simp [sumTrans, hj, hopj]

/-- A stack after translate(5,0,0) (entry 1) then translate(2,0,0)
(entry 2): entry 1 is the snapshot of stack A, entry 2 of stack B. -/
def exampleRelTrans : Heap × CoglMatrixStack :=
  let r0 := cogl_matrix_stack_new initialHeap 0
  let r1 := cogl_matrix_stack_translate r0.1 r0.2 5 0 0
  cogl_matrix_stack_translate r1.1 r1.2 2 0 0

/-- Stack A with rotate(90, z) between root and translate(5,0,0) (its
top is entry 2), and stack B from the same root with translate(5,0,0)
then translate(2,0,0) (its top is entry 4). -/
def exampleRotFail : Heap × CoglMatrixStack :=
  let r0 := cogl_matrix_stack_new initialHeap 0
  let r1 := cogl_matrix_stack_rotate r0.1 r0.2 90 0 0 1
  let r2 := cogl_matrix_stack_translate r1.1 r1.2 5 0 0
  let r3 := cogl_matrix_stack_new r2.1 0
  let r4 := cogl_matrix_stack_translate r3.1 r3.2 5 0 0
  cogl_matrix_stack_translate r4.1 r4.2 2 0 0

/-- C4: calculate_translation walks both chains skipping Save entries
and stopping just past the first non-Translate entry; when the two
walks share their first entry (a common ancestor) and every entry in
the two exclusive suffixes past the deepest common ancestor is a
Translate, it succeeds, returning the entry-1 suffix sums minus the
entry-0 suffix sums; when the walks share no first entry, or a
non-Translate entry sits in an exclusive suffix, it returns the FALSE
failure result rather than crashing.  Concretely, for A at
translate(5,0,0) and B at translate(5,0,0); translate(2,0,0) from the
same root the result is (2,0,0), and interposing rotate(90, z) in A
makes the call fail. -/
theorem calculate_translation_spec :
    (∀ (h : Heap) (e0 e1 : Option Nat) (a : Nat) (t0 t1 : List Nat),
      walkTransList (h.entries.length + 1) h e0 [] = some (a :: t0) →
      walkTransList (h.entries.length + 1) h e1 [] = some (a :: t1) →
      (∀ i ∈ (splitCommon (min t0.length t1.length) t0 t1).1,
        ∃ e, h.lookup i = some e ∧ e.op.isTranslate) →
      (∀ i ∈ (splitCommon (min t0.length t1.length) t0 t1).2,
        ∃ e, h.lookup i = some e ∧ e.op.isTranslate) →
      ∃ p0 p1,
        sumTrans h (splitCommon (min t0.length t1.length) t0 t1).1 = some p0 ∧
        sumTrans h (splitCommon (min t0.length t1.length) t0 t1).2 = some p1 ∧
        cogl_matrix_entry_calculate_translation h e0 e1 =
          some (some ⟨p1.x - p0.x, p1.y - p0.y, p1.z - p0.z⟩)) ∧
    (∀ (h : Heap) (e0 e1 : Option Nat) (a b : Nat) (t0 t1 : List Nat),
      walkTransList (h.entries.length + 1) h e0 [] = some (a :: t0) →
      walkTransList (h.entries.length + 1) h e1 [] = some (b :: t1) →
      a ≠ b →
      cogl_matrix_entry_calculate_translation h e0 e1 = some none) ∧
    (∀ (h : Heap) (e0 e1 : Option Nat) (a : Nat) (t0 t1 : List Nat)
        (i : Nat) (e : CoglMatrixEntry),
      walkTransList (h.entries.length + 1) h e0 [] = some (a :: t0) →
      walkTransList (h.entries.length + 1) h e1 [] = some (a :: t1) →
      (i ∈ (splitCommon (min t0.length t1.length) t0 t1).1 ∨
        i ∈ (splitCommon (min t0.length t1.length) t0 t1).2) →
      h.lookup i = some e → ¬ e.op.isTranslate = true →
      cogl_matrix_entry_calculate_translation h e0 e1 = some none) ∧
    cogl_matrix_entry_calculate_translation exampleRelTrans.1 (some 1) (some 2) =
      some (some ⟨2, 0, 0⟩) ∧
    cogl_matrix_entry_calculate_translation exampleRotFail.1 (some 2) (some 4) =
      some none := by
  refine ⟨?_, ?_, ?_, ?_, ?_⟩
  · intro h e0 e1 a t0 t1 hw0 hw1 htr0 htr1
    obtain ⟨p0, hp0⟩ := sumTrans_isSome_of_translate h _ htr0
    obtain ⟨p1, hp1⟩ := sumTrans_isSome_of_translate h _ htr1
    refine ⟨p0, p1, hp0, hp1, ?_⟩
    simp [cogl_matrix_entry_calculate_translation, hw0, hw1, hp0, hp1]
  · intro h e0 e1 a b t0 t1 hw0 hw1 hab
    simp [cogl_matrix_entry_calculate_translation, hw0, hw1, hab]
  · intro h e0 e1 a t0 t1 i e hw0 hw1 hmem he hnt
    cases hs0 : sumTrans h (splitCommon (min t0.length t1.length) t0 t1).1 with
    | none =>
      simp [cogl_matrix_entry_calculate_translation, hw0, hw1, hs0]
    | some p0 =>
      rcases hmem with hm0 | hm1
      · exact absurd hs0 (by rw [sumTrans_none_of_mem h _ i e hm0 he hnt]; simp)
      · have hs1 := sumTrans_none_of_mem h _ i e hm1 he hnt
        simp [cogl_matrix_entry_calculate_translation, hw0, hw1, hs0, hs1]
  · norm_num [exampleRelTrans, cogl_matrix_stack_new, cogl_matrix_stack_translate,
      _cogl_matrix_stack_push_operation, Heap.alloc, Heap.lookup, Heap.modifyEntry,
      cogl_matrix_entry_ref, initialHeap, identityEntry,
      cogl_matrix_entry_calculate_translation, walkTransList, splitCommon,
      sumTrans, CoglMatrixOp.isSave, CoglMatrixOp.isTranslate, List.getD]
  · norm_num [exampleRotFail, cogl_matrix_stack_new, cogl_matrix_stack_translate,
      cogl_matrix_stack_rotate, _cogl_matrix_stack_push_operation, Heap.alloc,
      Heap.lookup, Heap.modifyEntry, cogl_matrix_entry_ref, initialHeap,
      identityEntry, cogl_matrix_entry_calculate_translation, walkTransList,
      splitCommon, sumTrans, CoglMatrixOp.isSave, CoglMatrixOp.isTranslate,
      List.getD]

/-- Witness for C4: the success case applied to the concrete shared
chain — A at entry 1 (translate 5), B at entry 2 (translate 5 then
translate 2); the deepest common ancestor is entry 1 and the exclusive
suffixes are [] and [entry 2]. -/
theorem calculate_translation_spec_witness :
    walkTransList (exampleRelTrans.1.entries.length + 1) exampleRelTrans.1
      (some 1) [] = some (0 :: [1]) ∧
    walkTransList (exampleRelTrans.1.entries.length + 1) exampleRelTrans.1
      (some 2) [] = some (0 :: [1, 2]) ∧
    ∃ p0 p1,
      sumTrans exampleRelTrans.1
        (splitCommon (min [1].length [1, 2].length) [1] [1, 2]).1 = some p0 ∧
      sumTrans exampleRelTrans.1
        (splitCommon (min [1].length [1, 2].length) [1] [1, 2]).2 = some p1 ∧
      cogl_matrix_entry_calculate_translation exampleRelTrans.1 (some 1) (some 2) =
        some (some ⟨p1.x - p0.x, p1.y - p0.y, p1.z - p0.z⟩) := by
  refine ⟨by decide, by decide, ?_⟩
  apply calculate_translation_spec.1 exampleRelTrans.1 (some 1) (some 2) 0 [1] [1, 2]
    (by decide) (by decide)
  · intro i hi
    have hsplit : (splitCommon (min [1].length [1, 2].length) [1] [1, 2]).1 =
        ([] : List Nat) := by decide
    rw [hsplit] at hi
    exact absurd hi (by simp)
  · intro i hi
    have hsplit : (splitCommon (min [1].length [1, 2].length) [1] [1, 2]).2 =
        [2] := by decide
    rw [hsplit] at hi
    have hi2 : i = 2 := by simpa using hi
    subst hi2
    exact ⟨{ ref_count := 1, op := .translate ⟨2, 0, 0⟩, parent := some 1 },
      by decide, by decide⟩

theorem chainOk_nil (h : Heap) (s tp : Nat) :
    chainOk h s tp [] = true ↔ tp = s := by
  simp [chainOk]

theorem chainOk_cons (h : Heap) (s tp i : Nat) (l : List Nat) :
    chainOk h s tp (i :: l) = true ↔
      i = tp ∧ i ≠ s ∧ i ∉ l ∧
      ∃ e p, h.lookup i = some e ∧ e.op.isSave = false ∧ e.ref_count = 1 ∧
        e.parent = some p ∧ chainOk h s p l = true := by
  cases hl : h.lookup i with
  | none => simp [chainOk, hl]
  | some e =>
    cases hp : e.parent with
    | none => simp [chainOk, hl, hp]
    | some p =>
      simp [chainOk, hl, hp, and_assoc]

theorem chainOk_mem_live (h : Heap) (s : Nat) :
    ∀ (l : List Nat) (tp : Nat), chainOk h s tp l = true →
      ∀ i ∈ l, (h.lookup i).isSome ∧ i ≠ s := by
  intro l
  induction l with
  | nil => intro tp _ i hi; exact absurd hi (by simp)
  | cons j t ih =>
    intro tp hc i hi
    obtain ⟨-, hjs, -, e, p, hle, -, -, -, hct⟩ := (chainOk_cons h s tp j t).mp hc
    rcases List.mem_cons.mp hi with hij | hit
    · subst hij; exact ⟨by simp [hle], hjs⟩
    · exact ih p hct i hit

theorem chainOk_nodup (h : Heap) (s : Nat) :
    ∀ (l : List Nat) (tp : Nat), chainOk h s tp l = true → l.Nodup := by
  intro l
  induction l with
  | nil => intro tp _; exact List.nodup_nil
  | cons j t ih =>
    intro tp hc
    obtain ⟨-, -, hjl, e, p, -, -, -, -, hct⟩ := (chainOk_cons h s tp j t).mp hc
    exact List.nodup_cons.mpr ⟨hjl, ih p hct⟩

theorem chainOk_length_le (h : Heap) (s : Nat) (l : List Nat) (tp : Nat)
    (hc : chainOk h s tp l = true) : l.length ≤ h.entries.length := by
  have hnd : l.Nodup := chainOk_nodup h s l tp hc
  have hsub : l.toFinset ⊆ Finset.range h.entries.length := by
    intro x hx
    rw [List.mem_toFinset] at hx
    exact Finset.mem_range.mpr
      (h.lt_of_lookup_isSome ((chainOk_mem_live h s l tp hc x hx).1))
  calc l.length = l.toFinset.card := (List.toFinset_card_of_nodup hnd).symm
    _ ≤ (Finset.range h.entries.length).card := Finset.card_le_card hsub
    _ = h.entries.length := Finset.card_range _

theorem chainOk_transfer (h h' : Heap) (s : Nat) :
    ∀ (l : List Nat) (tp : Nat),
      (∀ i ∈ l, h'.lookup i = h.lookup i) →
      chainOk h s tp l = true → chainOk h' s tp l = true := by
  intro l
  induction l with
  | nil => intro tp _ hc; exact (chainOk_nil h' s tp).mpr ((chainOk_nil h s tp).mp hc)
  | cons j t ih =>
    intro tp hag hc
    obtain ⟨hjt, hjs, hjl, e, p, hle, hsv, hrc, hpp, hct⟩ :=
      (chainOk_cons h s tp j t).mp hc
    exact (chainOk_cons h' s tp j t).mpr ⟨hjt, hjs, hjl, e, p,
      by rw [hag j (by simp)]; exact hle, hsv, hrc, hpp,
      ih p (fun i hi => hag i (by simp [hi])) hct⟩

theorem popFindSave_of_chain (h : Heap) (s : Nat) (se : CoglMatrixEntry)
    (hs : h.lookup s = some se) (hsv : se.op.isSave = true) :
    ∀ (l : List Nat) (tp fuel : Nat), chainOk h s tp l = true →
      l.length + 1 ≤ fuel →
      popFindSave fuel h tp = some s := by
  intro l
  induction l with
  | nil =>
    intro tp fuel hc hfuel
    obtain rfl := (chainOk_nil h s tp).mp hc
    obtain ⟨f, rfl⟩ := Nat.exists_eq_add_of_le hfuel
    have step : List.length ([] : List Nat) + 1 + f = f + 1 := by
      simp
      omega
    rw [step]
    simp [popFindSave, hs, hsv]
  | cons j t ih =>
    intro tp fuel hc hfuel
    obtain ⟨hjt, hjs, hjl, e, p, hle, hsve, hrc, hpp, hct⟩ :=
      (chainOk_cons h s tp j t).mp hc
    subst hjt
    obtain ⟨f, rfl⟩ := Nat.exists_eq_add_of_le hfuel
    have step : (j :: t).length + 1 + f = (t.length + 1 + f) + 1 := by
      simp only [List.length_cons]
      omega
    rw [step]
    simp only [popFindSave, hle, hsve, hpp]
    exact ih p (t.length + 1 + f) hct (by omega)

theorem replacementFindTarget_of_chain (h : Heap) (s : Nat) (se : CoglMatrixEntry)
    (hs : h.lookup s = some se) (hsv : se.op.isSave = true) :
    ∀ (l : List Nat) (tp fuel : Nat), chainOk h s tp l = true →
      l.length + 1 ≤ fuel →
      replacementFindTarget fuel h tp = some s := by
  intro l
  induction l with
  | nil =>
    intro tp fuel hc hfuel
    obtain rfl := (chainOk_nil h s tp).mp hc
    obtain ⟨f, rfl⟩ := Nat.exists_eq_add_of_le hfuel
    have step : List.length ([] : List Nat) + 1 + f = f + 1 := by
      simp
      omega
    rw [step]
    simp [replacementFindTarget, hs, hsv]
  | cons j t ih =>
    intro tp fuel hc hfuel
    obtain ⟨hjt, hjs, hjl, e, p, hle, hsve, hrc, hpp, hct⟩ :=
      (chainOk_cons h s tp j t).mp hc
    subst hjt
    obtain ⟨f, rfl⟩ := Nat.exists_eq_add_of_le hfuel
    have step : (j :: t).length + 1 + f = (t.length + 1 + f) + 1 := by
      simp only [List.length_cons]
      omega
    rw [step]
    simp only [replacementFindTarget, hle, hsve, hpp]
    exact ih p (t.length + 1 + f) hct (by omega)

/-- Releasing the top of a chain whose entries all have reference count
1 frees exactly the chain and decrements the Save below it once (the
Save survives because an extra reference was taken before). -/
theorem unref_cascade_stop :
    ∀ (l : List Nat) (h : Heap) (tp s : Nat) (se : CoglMatrixEntry) (fuel : Nat),
      chainOk h s tp l = true →
      h.lookup s = some se → 2 ≤ se.ref_count →
      l.length + 1 ≤ fuel →
      (∀ i ∈ l, (unrefAux fuel h (some tp)).lookup i = none) ∧
      (unrefAux fuel h (some tp)).lookup s =
        some { se with ref_count := se.ref_count - 1 } ∧
      (∀ j, j ∉ l → j ≠ s → (unrefAux fuel h (some tp)).lookup j = h.lookup j) := by
  intro l
  induction l with
  | nil =>
    intro h tp s se fuel hc hs hrc hfuel
    obtain rfl := (chainOk_nil h s tp).mp hc
    obtain ⟨f, rfl⟩ := Nat.exists_eq_add_of_le hfuel
    have step : List.length ([] : List Nat) + 1 + f = f + 1 := by simp; omega
    rw [step]
    have hnotle : ¬ se.ref_count ≤ 1 := by omega
    simp only [unrefAux, hs, if_neg hnotle]
    refine ⟨by simp, Heap.lookup_modify_self hs _, ?_⟩
    intro j _ hjs
    exact Heap.lookup_modify_other h hjs _
  | cons i t ih =>
    intro h tp s se fuel hc hs hrc hfuel
    obtain ⟨hit, his, hitl, e, p, hle, hsve, hrce, hpp, hct⟩ :=
      (chainOk_cons h s tp i t).mp hc
    subst hit
    obtain ⟨f, rfl⟩ := Nat.exists_eq_add_of_le hfuel
    have step : (i :: t).length + 1 + f = (t.length + 1 + f) + 1 := by
      simp only [List.length_cons]; omega
    rw [step]
    have hle1 : e.ref_count ≤ 1 := by omega
    simp only [unrefAux, hle, if_pos hle1, hpp]
    have hct' : chainOk (h.free i) s p t = true := by
      apply chainOk_transfer h (h.free i) s t p ?_ hct
      intro j hj
      have hji : j ≠ i := fun hji => hitl (hji ▸ hj)
      exact Heap.lookup_free_other h hji
    have hs' : (h.free i).lookup s = some se := by
      rw [Heap.lookup_free_other h (Ne.symm his)]
      exact hs
    obtain ⟨hfree, hsdec, hother⟩ :=
      ih (h.free i) p s se (t.length + 1 + f) hct' hs' hrc (by omega)
    refine ⟨?_, hsdec, ?_⟩
    · intro j hj
      rcases List.mem_cons.mp hj with hji | hjt
      · subst hji
        rw [hother j hitl his]
        exact Heap.lookup_free_self h j
      · exact hfree j hjt
    · intro j hjl hjs
      have hjt : j ∉ t := fun hjt => hjl (by simp [hjt])
      have hji : j ≠ i := fun hji => hjl (by simp [hji])
      rw [hother j hjt hjs]
      exact Heap.lookup_free_other h hji

/-- Releasing the top of a chain above a Save whose reference count is
1 frees the chain and the Save and decrements the Save parent once. -/
theorem unref_cascade_through :
    ∀ (l : List Nat) (h : Heap) (tp s t : Nat) (se te : CoglMatrixEntry) (fuel : Nat),
      chainOk h s tp l = true →
      h.lookup s = some se → se.ref_count = 1 → se.parent = some t →
      h.lookup t = some te → 2 ≤ te.ref_count →
      t ∉ l → t ≠ s →
      l.length + 2 ≤ fuel →
      (∀ i ∈ l, (unrefAux fuel h (some tp)).lookup i = none) ∧
      (unrefAux fuel h (some tp)).lookup s = none ∧
      (unrefAux fuel h (some tp)).lookup t =
        some { te with ref_count := te.ref_count - 1 } ∧
      (∀ j, j ∉ l → j ≠ s → j ≠ t →
        (unrefAux fuel h (some tp)).lookup j = h.lookup j) := by
  intro l
  induction l with
  | nil =>
    intro h tp s t se te fuel hc hs hrcs hpar ht hrct htl hts hfuel
    obtain rfl := (chainOk_nil h s tp).mp hc
    obtain ⟨f, rfl⟩ := Nat.exists_eq_add_of_le hfuel
    have step : List.length ([] : List Nat) + 2 + f = (f + 1) + 1 := by simp; omega
    rw [step]
    have hle1 : se.ref_count ≤ 1 := by omega
    simp only [unrefAux, hs, if_pos hle1, hpar]
    have ht' : (h.free tp).lookup t = some te := by
      rw [Heap.lookup_free_other h hts]
      exact ht
    have hnotle : ¬ te.ref_count ≤ 1 := by omega
    simp only [unrefAux, ht', if_neg hnotle]
    refine ⟨by simp, ?_, ?_, ?_⟩
    · rw [Heap.lookup_modify_other _ (Ne.symm hts)]
      exact Heap.lookup_free_self h tp
    · exact Heap.lookup_modify_self ht' _
    · intro j _ hjs hjt
      rw [Heap.lookup_modify_other _ hjt]
      exact Heap.lookup_free_other h hjs
  | cons i tl ih =>
    intro h tp s t se te fuel hc hs hrcs hpar ht hrct htl hts hfuel
    obtain ⟨hit, his, hitl, e, p, hle, hsve, hrce, hpp, hct⟩ :=
      (chainOk_cons h s tp i tl).mp hc
    subst hit
    obtain ⟨f, rfl⟩ := Nat.exists_eq_add_of_le hfuel
    have step : (i :: tl).length + 2 + f = (tl.length + 2 + f) + 1 := by
      simp only [List.length_cons]; omega
    rw [step]
    have hle1 : e.ref_count ≤ 1 := by omega
    simp only [unrefAux, hle, if_pos hle1, hpp]
    have hti : t ≠ i := fun h2 => htl (by simp [h2])
    have hct' : chainOk (h.free i) s p tl = true := by
      apply chainOk_transfer h (h.free i) s tl p ?_ hct
      intro j hj
      have hji : j ≠ i := fun hji => hitl (hji ▸ hj)
      exact Heap.lookup_free_other h hji
    have hs' : (h.free i).lookup s = some se := by
      rw [Heap.lookup_free_other h (Ne.symm his)]
      exact hs
    have ht' : (h.free i).lookup t = some te := by
      rw [Heap.lookup_free_other h hti]
      exact ht
    obtain ⟨hfree, hsnone, htdec, hother⟩ :=
      ih (h.free i) p s t se te (tl.length + 2 + f) hct' hs' hrcs hpar ht' hrct
        (fun h2 => htl (by simp [h2])) hts (by omega)
    refine ⟨?_, hsnone, htdec, ?_⟩
    · intro j hj
      rcases List.mem_cons.mp hj with hji | hjt
      · subst hji
        rw [hother j hitl his hti.symm]

        exact Heap.lookup_free_self h j
      · exact hfree j hjt
    · intro j hjl hjs hjt
      have hjtl : j ∉ tl := fun hjtl => hjl (by simp [hjtl])
      have hji : j ≠ i := fun hji => hjl (by simp [hji])
      rw [hother j hjtl hjs hjt]
      exact Heap.lookup_free_other h hji

theorem live_nodup_length_le (h : Heap) (l : List Nat) (hnd : l.Nodup)
    (hlive : ∀ i ∈ l, (h.lookup i).isSome) : l.length ≤ h.entries.length := by
  have hsub : l.toFinset ⊆ Finset.range h.entries.length := by
    intro x hx
    rw [List.mem_toFinset] at hx
    exact Finset.mem_range.mpr (h.lt_of_lookup_isSome (hlive x hx))
  calc l.length = l.toFinset.card := (List.toFinset_card_of_nodup hnd).symm
    _ ≤ (Finset.range h.entries.length).card := Finset.card_le_card hsub
    _ = h.entries.length := Finset.card_range _

/-- Shared helper: full description of pop on a chain with a Save. -/
theorem pop_chain_effect
    (h : Heap) (st : CoglMatrixStack) (tp s t : Nat) (l : List Nat)
    (se te : CoglMatrixEntry)
    (htop : st.last_entry = some tp)
    (hchain : chainOk h s tp l = true)
    (hs : h.lookup s = some se) (hsv : se.op.isSave = true)
    (hrcs : se.ref_count = 1) (hpar : se.parent = some t)
    (ht : h.lookup t = some te) (hrct : 1 ≤ te.ref_count)
    (htl : t ∉ l) (hts : t ≠ s) :
    ∃ h', cogl_matrix_stack_pop h st = some (h', { last_entry := some t }) ∧
      (∀ i ∈ l, h'.lookup i = none) ∧
      h'.lookup s = none ∧
      h'.lookup t = some te ∧
      (∀ j, j ∉ l → j ≠ s → j ≠ t → h'.lookup j = h.lookup j) ∧
      h'.entries.length = h.entries.length := by
  have hsl : s ∉ l := fun hsl =>
    (chainOk_mem_live h s l tp hchain s hsl).2 rfl
  have hlenl : (s :: l).length ≤ h.entries.length := by
    apply live_nodup_length_le h (s :: l)
      (List.nodup_cons.mpr ⟨hsl, chainOk_nodup h s l tp hchain⟩)
    intro i hi
    rcases List.mem_cons.mp hi with hi | hi
    · subst hi; simp [hs]
    · exact (chainOk_mem_live h s l tp hchain i hi).1
  have hfind : popFindSave (h.entries.length + 1) h tp = some s :=
    popFindSave_of_chain h s se hs hsv l tp (h.entries.length + 1) hchain
      (by have := chainOk_length_le h s l tp hchain; omega)
  set h1 := cogl_matrix_entry_ref h (some t) with hh1
  have h1lent : h1.entries.length = h.entries.length := Heap.length_ref h _
  have h1t : h1.lookup t = some { te with ref_count := te.ref_count + 1 } :=
    Heap.lookup_ref_self ht
  have h1s : h1.lookup s = some se := by
    rw [Heap.lookup_ref_other h (Ne.symm hts)]
    exact hs
  have h1chain : chainOk h1 s tp l = true := by
    apply chainOk_transfer h h1 s l tp ?_ hchain
    intro j hj
    exact Heap.lookup_ref_other h (fun hji => htl (hji ▸ hj))
  obtain ⟨hfree, hsnone, htdec, hother⟩ :=
    unref_cascade_through l h1 tp s t se { te with ref_count := te.ref_count + 1 }
      (h1.entries.length + 1) h1chain h1s hrcs hpar h1t (by simp; omega) htl hts
      (by simp only [List.length_cons] at hlenl; omega)
  have hte : ({ te with ref_count := te.ref_count + 1 - 1 } : CoglMatrixEntry)
      = te := by
    cases te; simp
  have huneq : cogl_matrix_entry_unref h1 (some tp)
      = unrefAux (h1.entries.length + 1) h1 (some tp) := rfl
  refine ⟨cogl_matrix_entry_unref h1 (some tp), ?_, ?_, ?_, ?_, ?_, ?_⟩
  · simp only [cogl_matrix_stack_pop, htop, hfind, hs, hpar]
  · intro i hi
    rw [huneq]
    exact hfree i hi
  · rw [huneq]
    exact hsnone
  · rw [huneq, htdec, hte]
  · intro j hjl hjs hjt
    rw [huneq, hother j hjl hjs hjt]
    exact Heap.lookup_ref_other h hjt
  · rw [huneq, unrefAux_length, h1lent]

/-- C5: on a stack whose top chain l (reference counts 1) reaches a
Save entry s with parent t, pop walks up to s inclusive, makes t the
new top, and releases exactly the removed entries: every chain entry
and the Save are freed, the Save parent t keeps its entry (its count is
incremented and then given up again by the cascade), and every other
slot is untouched. -/
theorem cogl_matrix_stack_pop_spec
    (h : Heap) (st : CoglMatrixStack) (tp s t : Nat) (l : List Nat)
    (se te : CoglMatrixEntry)
    (htop : st.last_entry = some tp)
    (hchain : chainOk h s tp l = true)
    (hs : h.lookup s = some se) (hsv : se.op.isSave = true)
    (hrcs : se.ref_count = 1) (hpar : se.parent = some t)
    (ht : h.lookup t = some te) (hrct : 1 ≤ te.ref_count)
    (htl : t ∉ l) (hts : t ≠ s) :
    ∃ h', cogl_matrix_stack_pop h st = some (h', { last_entry := some t }) ∧
      (∀ i ∈ l, h'.lookup i = none) ∧
      h'.lookup s = none ∧
      h'.lookup t = some te ∧
      (∀ j, j ∉ l → j ≠ s → j ≠ t → h'.lookup j = h.lookup j) ∧
      h'.entries.length = h.entries.length :=
  pop_chain_effect h st tp s t l se te htop hchain hs hsv hrcs hpar ht hrct htl hts

/-- A fresh stack after push() then translate(1,0,0): identity at slot
0, Save at slot 1, Translate at slot 2 (the top). -/
def examplePopState : Heap × CoglMatrixStack :=
  let r0 := cogl_matrix_stack_new initialHeap 0
  let r1 := cogl_matrix_stack_push r0.1 r0.2
  cogl_matrix_stack_translate r1.1 r1.2 1 0 0

/-- Witness for C5: pop applied to the concrete stack with chain
translate (slot 2) above Save (slot 1) above identity (slot 0): the
translate and the Save are freed and slot 0 becomes the top again. -/
theorem cogl_matrix_stack_pop_spec_witness :
    examplePopState.2.last_entry = some 2 ∧
    chainOk examplePopState.1 1 2 [2] = true ∧
    examplePopState.1.lookup 1 =
      some { ref_count := 1, op := .save none, parent := some 0 } ∧
    examplePopState.1.lookup 0 =
      some { ref_count := 2, op := .loadIdentity, parent := none } ∧
    ∃ h', cogl_matrix_stack_pop examplePopState.1 examplePopState.2 =
        some (h', { last_entry := some 0 }) ∧
      (∀ i ∈ [2], h'.lookup i = none) ∧
      h'.lookup 1 = none ∧
      h'.lookup 0 = some { ref_count := 2, op := .loadIdentity, parent := none } ∧
      (∀ j, j ∉ [2] → j ≠ 1 → j ≠ 0 → h'.lookup j = examplePopState.1.lookup j) ∧
      h'.entries.length = examplePopState.1.entries.length :=
  ⟨by decide, by decide, by decide, by decide,
    cogl_matrix_stack_pop_spec examplePopState.1 examplePopState.2 2 1 0 [2]
      { ref_count := 1, op := .save none, parent := some 0 }
      { ref_count := 2, op := .loadIdentity, parent := none }
      (by decide) (by decide) (by decide) (by decide) (by decide) (by decide)
      (by decide) (by decide) (by decide) (by decide)⟩

theorem replacementFindTarget_of_chain_or_root (h : Heap) (r : Nat)
    (re : CoglMatrixEntry) (hr : h.lookup r = some re)
    (hterm : re.op.isSave = true ∨ re.parent = none) :
    ∀ (l : List Nat) (tp fuel : Nat), chainOk h r tp l = true →
      l.length + 1 ≤ fuel →
      replacementFindTarget fuel h tp = some r := by
  intro l
  induction l with
  | nil =>
    intro tp fuel hc hfuel
    obtain rfl := (chainOk_nil h r tp).mp hc
    obtain ⟨f, rfl⟩ := Nat.exists_eq_add_of_le hfuel
    have step : List.length ([] : List Nat) + 1 + f = f + 1 := by simp; omega
    rw [step]
    rcases hterm with hsv | hpn
    · simp [replacementFindTarget, hr, hsv]
    · by_cases hsv : re.op.isSave = true
      · simp [replacementFindTarget, hr, hsv]
      · simp [replacementFindTarget, hr, hpn, hsv]
  | cons j t ih =>
    intro tp fuel hc hfuel
    obtain ⟨hjt, hjs, hjl, e, p, hle, hsve, hrc, hpp, hct⟩ :=
      (chainOk_cons h r tp j t).mp hc
    subst hjt
    obtain ⟨f, rfl⟩ := Nat.exists_eq_add_of_le hfuel
    have step : (j :: t).length + 1 + f = (t.length + 1 + f) + 1 := by
      simp only [List.length_cons]; omega
    rw [step]
    simp only [replacementFindTarget, hle, hsve, hpp]
    exact ih p (t.length + 1 + f) hct (by omega)

/-- A fresh stack after translate(1,0,0) then translate(0,1,0): slots 1
and 2 hold the two translate entries above the root identity. -/
def exampleLoadIdentityState : Heap × CoglMatrixStack :=
  let r0 := cogl_matrix_stack_new initialHeap 0
  let r1 := cogl_matrix_stack_translate r0.1 r0.2 1 0 0
  cogl_matrix_stack_translate r1.1 r1.2 0 1 0

/-- Shared helper: full description of a replacing push on a chain
reaching a Save or the root. -/
theorem push_replacement_chain_effect
    (h : Heap) (st : CoglMatrixStack) (op : CoglMatrixOp) (tp r : Nat)
    (l : List Nat) (re : CoglMatrixEntry)
    (htop : st.last_entry = some tp)
    (hchain : chainOk h r tp l = true)
    (hr : h.lookup r = some re)
    (hterm : re.op.isSave = true ∨ re.parent = none)
    (hrcr : 1 ≤ re.ref_count) :
    ∃ h', _cogl_matrix_stack_push_replacement_entry h st op =
        some (h', { last_entry := some h.entries.length }, h.entries.length) ∧
      (∀ i ∈ l, h'.lookup i = none) ∧
      h'.lookup r = some re ∧
      h'.lookup h.entries.length =
        some { ref_count := 1, op := op, parent := some r } ∧
      (∀ j, j ∉ l → j ≠ r → j ≠ h.entries.length → h'.lookup j = h.lookup j) ∧
      h'.entries.length = h.entries.length + 1 := by
    have hrl : r ∉ l := fun hrl =>
      (chainOk_mem_live h r l tp hchain r hrl).2 rfl
    have hfind : replacementFindTarget (h.entries.length + 1) h tp = some r :=
      replacementFindTarget_of_chain_or_root h r re hr hterm l tp
        (h.entries.length + 1) hchain
        (by have := chainOk_length_le h r l tp hchain; omega)
    set h1 := cogl_matrix_entry_ref h (some r) with hh1
    have h1len : h1.entries.length = h.entries.length := Heap.length_ref h _
    have h1r : h1.lookup r = some { re with ref_count := re.ref_count + 1 } :=
      Heap.lookup_ref_self hr
    have h1chain : chainOk h1 r tp l = true := by
      apply chainOk_transfer h h1 r l tp ?_ hchain
      intro j hj
      exact Heap.lookup_ref_other h (fun hji => hrl (hji ▸ hj))
    obtain ⟨hfree, hrdec, hother⟩ :=
      unref_cascade_stop l h1 tp r { re with ref_count := re.ref_count + 1 }
        (h1.entries.length + 1) h1chain h1r (by simp; omega)
        (by have := chainOk_length_le h r l tp hchain; omega)
    have huneq : cogl_matrix_entry_unref h1 (some tp)
        = unrefAux (h1.entries.length + 1) h1 (some tp) := rfl
    have hre : ({ re with ref_count := re.ref_count + 1 - 1 } : CoglMatrixEntry)
        = re := by
      cases re; simp
    have h2len : (cogl_matrix_entry_unref h1 (some tp)).entries.length
        = h.entries.length := by
      rw [huneq, unrefAux_length, h1len]
    have h2r : (cogl_matrix_entry_unref h1 (some tp)).lookup r = some re := by
      rw [huneq, hrdec, hre]
    refine ⟨((cogl_matrix_entry_unref h1 (some tp)).alloc
        { ref_count := 1, op := op, parent := some r }).1, ?_, ?_, ?_, ?_, ?_, ?_⟩
    · simp only [_cogl_matrix_stack_push_replacement_entry, htop, hfind,
        push_operation_eq]
      rw [h2len]
    · intro i hi
      have hilt : i < h.entries.length :=
        h.lt_of_lookup_isSome (chainOk_mem_live h r l tp hchain i hi).1
      rw [Heap.lookup_alloc_old _ _ (by omega)]
      rw [huneq]
      exact hfree i hi
    · have hrlt : r < h.entries.length := h.lt_of_lookup_isSome (by simp [hr])
      rw [Heap.lookup_alloc_old _ _ (by omega)]
      exact h2r
    · have hnew := Heap.lookup_alloc_new (cogl_matrix_entry_unref h1 (some tp))
        { ref_count := 1, op := op, parent := some r }
      rw [h2len] at hnew
      exact hnew
    · intro j hjl hjr hjn
      rw [Heap.lookup_alloc_old _ _ (by omega)]
      rw [huneq, hother j hjl hjr]
      exact Heap.lookup_ref_other h hjr
    · rw [Heap.length_alloc, h2len]

/-- C6: load_identity() and set(matrix) move the top back to the
nearest Save entry — or the root when the chain has none — push the new
replacing entry on top of it, and release the chain entries from the
previous top down to (excluding) that Save/root: with their reference
counts at 1 they are freed, while the Save/root entry and every other
slot end up unchanged.  In particular, after translate(1,0,0);
translate(0,1,0); load_identity() on a fresh stack, the two translate
entries (slots 1 and 2) are freed and the new LoadIdentity entry sits
directly on the root. -/
theorem push_replacement_spec :
    (∀ (h : Heap) (st : CoglMatrixStack) (op : CoglMatrixOp) (tp r : Nat)
        (l : List Nat) (re : CoglMatrixEntry),
      st.last_entry = some tp →
      chainOk h r tp l = true →
      h.lookup r = some re →
      (re.op.isSave = true ∨ re.parent = none) →
      1 ≤ re.ref_count →
      ∃ h', _cogl_matrix_stack_push_replacement_entry h st op =
          some (h', { last_entry := some h.entries.length }, h.entries.length) ∧
        (∀ i ∈ l, h'.lookup i = none) ∧
        h'.lookup r = some re ∧
        h'.lookup h.entries.length =
          some { ref_count := 1, op := op, parent := some r } ∧
        (∀ j, j ∉ l → j ≠ r → j ≠ h.entries.length → h'.lookup j = h.lookup j) ∧
        h'.entries.length = h.entries.length + 1) ∧
    cogl_matrix_stack_load_identity exampleLoadIdentityState.1
        exampleLoadIdentityState.2 =
      some (⟨[some { ref_count := 2, op := .loadIdentity, parent := none },
          none, none,
          some { ref_count := 1, op := .loadIdentity, parent := some 0 }]⟩,
        { last_entry := some 3 }) :=
  ⟨fun h st op tp r l re htop hchain hr hterm hrcr =>
    push_replacement_chain_effect h st op tp r l re htop hchain hr hterm hrcr,
   by decide⟩

/-- Witness for C6: the replacement theorem applied to the concrete
stack translate(1,0,0); translate(0,1,0) (top slot 2, chain [2, 1] over
the root identity at slot 0, which has no Save): both translate slots
are freed and the new entry lands on the root. -/
theorem push_replacement_spec_witness :
    exampleLoadIdentityState.2.last_entry = some 2 ∧
    chainOk exampleLoadIdentityState.1 0 2 [2, 1] = true ∧
    exampleLoadIdentityState.1.lookup 0 =
      some { ref_count := 2, op := .loadIdentity, parent := none } ∧
    ∃ h', _cogl_matrix_stack_push_replacement_entry exampleLoadIdentityState.1
        exampleLoadIdentityState.2 .loadIdentity =
        some (h', { last_entry := some 3 }, 3) ∧
      (∀ i ∈ [2, 1], h'.lookup i = none) ∧
      h'.lookup 0 = some { ref_count := 2, op := .loadIdentity, parent := none } ∧
      h'.lookup 3 = some { ref_count := 1, op := .loadIdentity, parent := some 0 } ∧
      (∀ j, j ∉ [2, 1] → j ≠ 0 → j ≠ 3 →
        h'.lookup j = exampleLoadIdentityState.1.lookup j) ∧
      h'.entries.length = 4 :=
  ⟨by decide, by decide, by decide,
    push_replacement_spec.1 exampleLoadIdentityState.1 exampleLoadIdentityState.2
      .loadIdentity 2 0 [2, 1]
      { ref_count := 2, op := .loadIdentity, parent := none }
      (by decide) (by decide) (by decide) (Or.inr (by decide)) (by decide)⟩

/-- Invariant tying the state during push(); M to the state (h0, top t)
just before the push: the pushed Save s sits directly above t with
count 1, the current top reaches s through a chain of fresh (≥ old heap
size) non-Save count-1 entries, and every old slot is untouched. -/
structure PushInv (h0 : Heap) (s t : Nat) (h : Heap) (st : CoglMatrixStack) : Prop where
  len_ge : h0.entries.length ≤ h.entries.length
  s_ge : h0.entries.length ≤ s
  t_lt : t < h0.entries.length
  below : ∀ i, i < h0.entries.length → h.lookup i = h0.lookup i
  save_entry : ∃ c, h.lookup s =
    some { ref_count := 1, op := .save c, parent := some t }
  chain : ∃ tp l, st.last_entry = some tp ∧ chainOk h s tp l = true ∧
    ∀ i ∈ l, h0.entries.length ≤ i

theorem pushInv_start (h0 : Heap) (st : CoglMatrixStack) (t : Nat)
    (te : CoglMatrixEntry)
    (htop : st.last_entry = some t) (ht : h0.lookup t = some te) :
    PushInv h0 h0.entries.length t (cogl_matrix_stack_push h0 st).1
      (cogl_matrix_stack_push h0 st).2 := by
  constructor
  · rw [cogl_matrix_stack_push, push_operation_eq, Heap.length_alloc]
    omega
  · exact Nat.le_refl _
  · exact h0.lt_of_lookup_isSome (by simp [ht])
  · intro i hi
    rw [cogl_matrix_stack_push, push_operation_eq]
    exact Heap.lookup_alloc_old h0 _ (by omega)
  · refine ⟨none, ?_⟩
    rw [cogl_matrix_stack_push, push_operation_eq, ← htop]
    exact Heap.lookup_alloc_new h0 _
  · refine ⟨h0.entries.length, [], rfl, ?_, by simp⟩
    exact (chainOk_nil _ _ _).mpr rfl

theorem pushInv_after_push_operation (h0 : Heap) (s t : Nat) (h : Heap)
    (st : CoglMatrixStack) (op : CoglMatrixOp) (hopns : op.isSave = false)
    (hinv : PushInv h0 s t h st) :
    PushInv h0 s t (_cogl_matrix_stack_push_operation h st op).1
      { last_entry := some h.entries.length } := by
  obtain ⟨hlen, hsge, htlt, hbelow, ⟨c, hsave⟩, tp, l, htp, hchain, hlge⟩ := hinv
  have hslt : s < h.entries.length := h.lt_of_lookup_isSome (by simp [hsave])
  constructor
  · rw [push_operation_eq, Heap.length_alloc]; omega
  · exact hsge
  · exact htlt
  · intro i hi
    rw [push_operation_eq, Heap.lookup_alloc_old h _ (by omega)]
    exact hbelow i hi
  · refine ⟨c, ?_⟩
    rw [push_operation_eq, Heap.lookup_alloc_old h _ (by omega)]
    exact hsave
  · refine ⟨h.entries.length, h.entries.length :: l, rfl, ?_, ?_⟩
    · apply (chainOk_cons _ _ _ _ _).mpr
      refine ⟨rfl, by omega, ?_,
        { ref_count := 1, op := op, parent := st.last_entry },
        tp, ?_, hopns, rfl, by rw [htp], ?_⟩
      · intro hmem
        have := (chainOk_mem_live h s l tp hchain _ hmem).1
        have := h.lt_of_lookup_isSome this
        omega
      · rw [push_operation_eq]
        exact Heap.lookup_alloc_new h _
      · apply chainOk_transfer h _ s l tp ?_ hchain
        intro i hi
        have hilt : i < h.entries.length :=
          h.lt_of_lookup_isSome (chainOk_mem_live h s l tp hchain i hi).1
        rw [push_operation_eq]
        exact Heap.lookup_alloc_old h _ (by omega)
    · intro i hi
      rcases List.mem_cons.mp hi with hi | hi
      · omega
      · exact hlge i hi

theorem pushInv_after_replacement (h0 : Heap) (s t : Nat) (h : Heap)
    (st : CoglMatrixStack) (op : CoglMatrixOp) (hopns : op.isSave = false)
    (hinv : PushInv h0 s t h st) :
    ∃ h', _cogl_matrix_stack_push_replacement_entry h st op =
        some (h', { last_entry := some h.entries.length }, h.entries.length) ∧
      PushInv h0 s t h' { last_entry := some h.entries.length } := by
  obtain ⟨hlen, hsge, htlt, hbelow, ⟨c, hsave⟩, tp, l, htp, hchain, hlge⟩ := hinv
  have hslt : s < h.entries.length := h.lt_of_lookup_isSome (by simp [hsave])
  obtain ⟨h', heq, hfree, hrkeep, hnew, hother, hlen'⟩ :=
    push_replacement_chain_effect h st op tp s l
      { ref_count := 1, op := .save c, parent := some t }
      htp hchain hsave (Or.inl rfl) (by simp)
  refine ⟨h', heq, ?_⟩
  constructor
  · omega
  · exact hsge
  · exact htlt
  · intro i hi
    rw [hother i ?_ (by omega) (by omega)]
    · exact hbelow i hi
    · intro hmem
      have := hlge i hmem
      omega
  · exact ⟨c, hrkeep⟩
  · refine ⟨h.entries.length, [h.entries.length], rfl, ?_, by simp; omega⟩
    apply (chainOk_cons _ _ _ _ _).mpr
    refine ⟨rfl, by omega, by simp,
      { ref_count := 1, op := op, parent := some s }, s, hnew, hopns, rfl, rfl, ?_⟩
    exact (chainOk_nil _ _ _).mpr rfl

theorem pushInv_mutOps (h0 : Heap) (s t : Nat) :
    ∀ (M : List MutOp) (h : Heap) (st : CoglMatrixStack),
      PushInv h0 s t h st →
      ∃ h' st', applyMutOps h st M = some (h', st') ∧ PushInv h0 s t h' st' := by
  intro M
  induction M with
  | nil => intro h st hinv; exact ⟨h, st, rfl, hinv⟩
  | cons op M ih =>
    intro h st hinv
    cases op with
    | translate x y z =>
      obtain ⟨h', st', happ, hinv'⟩ := ih _ _
        (pushInv_after_push_operation h0 s t h st (.translate ⟨x, y, z⟩) rfl hinv)
      exact ⟨h', st', by simpa [applyMutOps, applyMutOp,
        cogl_matrix_stack_translate] using happ, hinv'⟩
    | rotate a x y z =>
      obtain ⟨h', st', happ, hinv'⟩ := ih _ _
        (pushInv_after_push_operation h0 s t h st (.rotate a ⟨x, y, z⟩) rfl hinv)
      exact ⟨h', st', by simpa [applyMutOps, applyMutOp,
        cogl_matrix_stack_rotate] using happ, hinv'⟩
    | rotateEuler u =>
      obtain ⟨h', st', happ, hinv'⟩ := ih _ _
        (pushInv_after_push_operation h0 s t h st (.rotateEuler u) rfl hinv)
      exact ⟨h', st', by simpa [applyMutOps, applyMutOp,
        cogl_matrix_stack_rotate_euler] using happ, hinv'⟩
    | scale x y z =>
      obtain ⟨h', st', happ, hinv'⟩ := ih _ _
        (pushInv_after_push_operation h0 s t h st (.scale x y z) rfl hinv)
      exact ⟨h', st', by simpa [applyMutOps, applyMutOp,
        cogl_matrix_stack_scale] using happ, hinv'⟩
    | multiply m =>
      obtain ⟨h', st', happ, hinv'⟩ := ih _ _
        (pushInv_after_push_operation h0 s t h st (.multiply m) rfl hinv)
      exact ⟨h', st', by simpa [applyMutOps, applyMutOp,
        cogl_matrix_stack_multiply] using happ, hinv'⟩
    | loadIdentity =>
      obtain ⟨h1, heq, hinv1⟩ :=
        pushInv_after_replacement h0 s t h st .loadIdentity rfl hinv
      obtain ⟨h', st', happ, hinv'⟩ := ih _ _ hinv1
      refine ⟨h', st', ?_, hinv'⟩
      simp only [applyMutOps, applyMutOp, cogl_matrix_stack_load_identity, heq,
        Option.map_some']
      exact happ
    | set m =>
      obtain ⟨h1, heq, hinv1⟩ :=
        pushInv_after_replacement h0 s t h st (.load m) rfl hinv
      obtain ⟨h', st', happ, hinv'⟩ := ih _ _ hinv1
      refine ⟨h', st', ?_, hinv'⟩
      simp only [applyMutOps, applyMutOp, cogl_matrix_stack_set, heq,
        Option.map_some']
      exact happ

theorem pushInv_pop (h0 : Heap) (s t : Nat) (h : Heap) (st : CoglMatrixStack)
    (te : CoglMatrixEntry) (hinv : PushInv h0 s t h st)
    (ht0 : h0.lookup t = some te) (hrct : 1 ≤ te.ref_count) :
    ∃ h', cogl_matrix_stack_pop h st = some (h', { last_entry := some t }) ∧
      (∀ i, i < h0.entries.length → h'.lookup i = h0.lookup i) ∧
      h0.entries.length ≤ h'.entries.length := by
  obtain ⟨hlen, hsge, htlt, hbelow, ⟨c, hsave⟩, tp, l, htp, hchain, hlge⟩ := hinv
  have ht : h.lookup t = some te := by rw [hbelow t htlt]; exact ht0
  obtain ⟨h', heq, hfree, hsnone, htkeep, hother, hlen'⟩ :=
    pop_chain_effect h st tp s t l
      { ref_count := 1, op := .save c, parent := some t } te htp hchain hsave
      rfl rfl rfl ht hrct
      (fun hmem => by have := hlge t hmem; omega) (by omega)
  refine ⟨h', heq, ?_, by omega⟩
  intro i hi
  by_cases hit : i = t
  · subst hit
    rw [htkeep]
    exact ht0.symm
  · rw [hother i ?_ (by omega) hit]
    · exact hbelow i hi
    · intro hmem
      have := hlge i hmem
      omega

theorem skipSaves_mono :
    ∀ (f : Nat) (h : Heap) (t j : Nat),
      _cogl_matrix_entry_skip_saves f h t = some j →
      ∀ f', f ≤ f' → _cogl_matrix_entry_skip_saves f' h t = some j := by
  intro f
  induction f with
  | zero => intro h t j hsk; simp [_cogl_matrix_entry_skip_saves] at hsk
  | succ f ih =>
    intro h t j hsk f' hle
    obtain ⟨f2, rfl⟩ := Nat.exists_eq_add_of_le hle
    cases hl : h.lookup t with
    | none => simp [_cogl_matrix_entry_skip_saves, hl] at hsk
    | some e =>
      by_cases hsv : e.op.isSave = true
      · cases hp : e.parent with
        | none => simp [_cogl_matrix_entry_skip_saves, hl, hsv, hp] at hsk
        | some p =>
          simp only [_cogl_matrix_entry_skip_saves, hl, hsv, hp, if_pos] at hsk
          have step : f + 1 + f2 = (f + f2) + 1 := by omega
          rw [step]
          simp only [_cogl_matrix_entry_skip_saves, hl, hsv, hp, if_pos]
          exact ih h p j hsk (f + f2) (by omega)
      · simp only [_cogl_matrix_entry_skip_saves, hl, hsv] at hsk
        have step : f + 1 + f2 = (f + f2) + 1 := by omega
        rw [step]
        simp only [_cogl_matrix_entry_skip_saves, hl, hsv]
        simp only [Bool.false_eq_true, if_false] at hsk ⊢
        exact hsk

theorem skipSaves_transfer (h0 h3 : Heap)
    (hag : ∀ i, i < h0.entries.length → h3.lookup i = h0.lookup i) :
    ∀ (f : Nat) (t j : Nat),
      _cogl_matrix_entry_skip_saves f h0 t = some j →
      _cogl_matrix_entry_skip_saves f h3 t = some j := by
  intro f
  induction f with
  | zero => intro t j hsk; simp [_cogl_matrix_entry_skip_saves] at hsk
  | succ f ih =>
    intro t j hsk
    cases hl : h0.lookup t with
    | none => simp [_cogl_matrix_entry_skip_saves, hl] at hsk
    | some e =>
      have hl3 : h3.lookup t = some e := by
        rw [hag t (h0.lt_of_lookup_isSome (by simp [hl]))]
        exact hl
      by_cases hsv : e.op.isSave = true
      · cases hp : e.parent with
        | none => simp [_cogl_matrix_entry_skip_saves, hl, hsv, hp] at hsk
        | some p =>
          simp only [_cogl_matrix_entry_skip_saves, hl, hsv, hp, if_pos] at hsk
          simp only [_cogl_matrix_entry_skip_saves, hl3, hsv, hp, if_pos]
          exact ih p j hsk
      · simp only [_cogl_matrix_entry_skip_saves, hl, hsv] at hsk
        simp only [_cogl_matrix_entry_skip_saves, hl3, hsv]
        simp only [Bool.false_eq_true, if_false] at hsk ⊢
        exact hsk

/-- C2: for every stack (well formed at its top: the top entry t is
live with a positive reference count and its Save prefix reaches a
non-Save entry) and every sequence M of transform mutations, the
sequence push(); M; pop() succeeds and leaves the stack top at exactly
the entry t it started from, with get_matrix() equal to its old value
under the structural equality of cogl_matrix_entry_equal (the old and
new top entries compare equal, in the final heap). -/
theorem push_pop_restores_stack
    (h : Heap) (st : CoglMatrixStack) (t j : Nat) (te : CoglMatrixEntry)
    (htop : st.last_entry = some t)
    (ht : h.lookup t = some te) (hrct : 1 ≤ te.ref_count)
    (hsk : _cogl_matrix_entry_skip_saves (h.entries.length + 1) h t = some j)
    (M : List MutOp) :
    ∃ h2 st2 h3,
      applyMutOps (cogl_matrix_stack_push h st).1 (cogl_matrix_stack_push h st).2 M
        = some (h2, st2) ∧
      cogl_matrix_stack_pop h2 st2 = some (h3, { last_entry := some t }) ∧
      ({ last_entry := some t } : CoglMatrixStack).last_entry = st.last_entry ∧
      cogl_matrix_entry_equal h3 (some t) st.last_entry = some true := by
  have hinv0 := pushInv_start h st t te htop ht
  obtain ⟨h2, st2, happM, hinv2⟩ :=
    pushInv_mutOps h h.entries.length t M _ _ hinv0
  obtain ⟨h3, hpop, hbelow3, hlen3⟩ := pushInv_pop h h.entries.length t h2 st2 te
    hinv2 ht hrct
  have hsk3 : _cogl_matrix_entry_skip_saves (h3.entries.length + 1) h3 t = some j := by
    apply skipSaves_mono (h.entries.length + 1) h3 t j ?_ _ (by omega)
    exact skipSaves_transfer h h3 hbelow3 (h.entries.length + 1) t j hsk
  refine ⟨h2, st2, h3, happM, hpop, by rw [htop], ?_⟩
  rw [htop]
  simp [cogl_matrix_entry_equal, entryEqualAux, hsk3]

/-- Witness for C2: push(); translate; load_identity; scale; pop() on a
fresh stack over the shared identity entry restores the top to the
identity entry, equal to its old value. -/
theorem push_pop_restores_stack_witness :
    ({ last_entry := some 0 } : CoglMatrixStack).last_entry = some 0 ∧
    initialHeap.lookup 0 = some identityEntry ∧
    1 ≤ identityEntry.ref_count ∧
    _cogl_matrix_entry_skip_saves (initialHeap.entries.length + 1) initialHeap 0
      = some 0 ∧
    ∃ h2 st2 h3,
      applyMutOps (cogl_matrix_stack_push initialHeap ⟨some 0⟩).1
          (cogl_matrix_stack_push initialHeap ⟨some 0⟩).2
          [.translate 1 0 0, .loadIdentity, .scale 2 2 2] = some (h2, st2) ∧
      cogl_matrix_stack_pop h2 st2 = some (h3, { last_entry := some 0 }) ∧
      ({ last_entry := some 0 } : CoglMatrixStack).last_entry =
        ({ last_entry := some 0 } : CoglMatrixStack).last_entry ∧
      cogl_matrix_entry_equal h3 (some 0)
        ({ last_entry := some 0 } : CoglMatrixStack).last_entry = some true :=
  ⟨rfl, by decide, by decide, by decide,
    push_pop_restores_stack initialHeap ⟨some 0⟩ 0 0 identityEntry rfl
      (by decide) (by decide) (by decide)
      [.translate 1 0 0, .loadIdentity, .scale 2 2 2]⟩
